import Mathlib

/-!
Verification of the provider-aggregation core of the pricr repository.

The Rust sources are shallowly embedded: pure string manipulation is
modelled on Lean strings via their underlying character lists, `f64`
values are modelled as exact rationals (floating-point rounding and
overflow are abstracted away), fallible functions return `Except`,
asynchronous provider calls are modelled as response functions (each
provider is called at most once per request, so a call is a pure
function of the request), and the filesystem backing the TTL cache is
modelled as an explicit association-list store that is threaded through
`write_json` and `read_json`.  Rust `trim`, `to_uppercase`,
`to_ascii_lowercase` and friends are embedded as character-list
operations using Lean's ASCII `Char.toUpper` and `Char.toLower`; this
coincides with the Rust behaviour on all ASCII input, which is the
domain the repository exercises.
-/

namespace Pricr

/-! ## Character-level string helpers (Rust str methods) -/

/-- Whitespace test used by Rust `str::trim` (ASCII fragment). -/
def isWs (c : Char) : Bool := c = ' ' ∨ c = '\t' ∨ c = '\n' ∨ c = '\r'

/-- Drop leading and trailing whitespace, as Rust `str::trim`. -/
def trimChars (cs : List Char) : List Char :=
  ((cs.dropWhile isWs).reverse.dropWhile isWs).reverse

/-- Rust `str::trim` on a Lean string. -/
def strTrim (s : String) : String := String.mk (trimChars s.data)

/-- Rust `str::to_uppercase` (ASCII fragment, coincides with
`to_ascii_uppercase` on ASCII input). -/
def strUpper (s : String) : String := String.mk (s.data.map Char.toUpper)

/-- Rust `str::to_ascii_lowercase` / `to_lowercase` (ASCII fragment). -/
def strLower (s : String) : String := String.mk (s.data.map Char.toLower)

/-- Rust `s.trim().to_uppercase()`, the symbol normalisation used for
price matching and ticker identity keys. -/
def trimUpper (s : String) : String := String.mk ((trimChars s.data).map Char.toUpper)

/-- Rust `s.trim().to_lowercase()`, used for ticker identity keys. -/
def trimLower (s : String) : String := String.mk ((trimChars s.data).map Char.toLower)

/-- Rust `str::eq_ignore_ascii_case`. -/
def eqIgnoreAsciiCase (a b : String) : Bool :=
  a.data.map Char.toLower = b.data.map Char.toLower

/-- Rust `existing.split(',')`: split a character list at every comma. -/
def splitOnComma (cs : List Char) : List (List Char) :=
  match cs with
  | [] => [[]]
  | c :: rest =>
    if c = ',' then [] :: splitOnComma rest
    else
      match splitOnComma rest with
      | [] => [[c]]
      | g :: gs => (c :: g) :: gs

/-- Rust `haystack.contains(needle)` on character lists. -/
def isSubstrOf (needle haystack : List Char) : Bool :=
  (List.range (haystack.length + 1)).any fun i => needle.isPrefixOf (haystack.drop i)

/-! ## Error taxonomy (src/error.rs)

`Error::Http` carries a `reqwest::Error` in the source; only its display
text matters to the aggregation core, so it is embedded with a `String`
payload. -/

inductive Error where
  | Http : String → Error
  | Api : String → Error
  | Parse : String → Error
  | Config : String → Error
  | NoResults : Error
  deriving DecidableEq, Inhabited

/-! ## TTL cache (src/provider/cache.rs)

The filesystem is modelled as an association list from `(namespace, key)`
to file contents; `fs_insert` conses, `fs_lookup` takes the first match,
so the model is last-writer-wins exactly like overwriting a file.  A file
whose payload fails to deserialize is modelled as content `none`.  Path
derivation (`sanitize_component`, the 64-bit `hash_key` digest and the
cache-root environment lookup) is abstracted: the store is keyed by the
raw `(provider, key)` pair, and the cache root is taken to exist (the
code swallows filesystem failures, which are outside this pure model).
`chrono::Utc::now().timestamp()` becomes an explicit `now : Int`
argument. -/

structure CacheEnvelope (T : Type) where
  fetched_at_unix : Int
  value : T
  deriving DecidableEq

def FsState (T : Type) : Type := List ((String × String) × Option (CacheEnvelope T))

def fs_lookup {T : Type} (fs : FsState T) (provider key : String) :
    Option (Option (CacheEnvelope T)) :=
  (List.find? (fun e => decide (e.1 = (provider, key))) fs).map (·.2)

def fs_insert {T : Type} (fs : FsState T) (provider key : String)
    (content : Option (CacheEnvelope T)) : FsState T :=
  ((provider, key), content) :: fs

/-- `cache::read_json`: miss on absent file, undeserializable payload,
negative age, or age strictly greater than the TTL. -/
def read_json {T : Type} (fs : FsState T) (provider key : String)
    (ttl_secs : Int) (now : Int) : Option T :=
  match fs_lookup fs provider key with
  | none => none
  | some none => none
  | some (some envelope) =>
    let age_secs := now - envelope.fetched_at_unix
    if age_secs < 0 ∨ age_secs > ttl_secs then none else some envelope.value

/-- `cache::write_json`: persist the envelope stamped with the current
time (the successful-write path; failures are swallowed by the code). -/
def write_json {T : Type} (fs : FsState T) (provider key : String) (value : T)
    (now : Int) : FsState T :=
  fs_insert fs provider key (some ⟨now, value⟩)

/-! ## Fiat parsing and naming (src/calc.rs) -/

/-- Recognized fiat currency codes (`KNOWN_FIAT`). -/
def KNOWN_FIAT : List String :=
  ["USD", "EUR", "GBP", "JPY", "CNY", "CAD", "AUD", "CHF", "KRW", "INR", "BRL",
   "RUB", "TRY", "ZAR", "MXN", "SGD", "HKD", "NOK", "SEK", "DKK", "NZD", "PLN",
   "THB", "TWD", "CZK", "HUF", "ILS", "PHP", "MYR", "ARS", "CLP", "COP", "IDR",
   "SAR", "AED", "NGN", "VND", "PKR", "BDT", "EGP"]

structure FiatAmount where
  amount : ℚ
  currency : String
  deriving DecidableEq

/-- Decimal-digit run to a natural number (most significant first). -/
def digitsToNat (ds : List Char) : Nat :=
  ds.foldl (fun acc c => acc * 10 + (c.toNat - '0'.toNat)) 0

/-- Value of a fractional digit run (digits after the decimal point). -/
def fracVal (ds : List Char) : ℚ :=
  (digitsToNat ds : ℚ) / ((10 : ℚ) ^ ds.length)

/-- Rust `f64::from_str` on the inputs `parse_fiat_amount` can produce.
The prefix handed to the parser never contains an ASCII-alphabetic
character (the split happens at the first one), so the `inf` / `nan` /
exponent alternatives of the full grammar are unreachable and what
remains is `sign? (digits | digits "." digits* | "." digits)`.  The
result is the exact rational value of the literal; the parsed f64 is its
correctly-rounded image (Rust parsing rounds ties-to-even), and the two
range tests the program applies to that f64 — `amount <= 0.0` and
`!amount.is_finite()` — are rendered exactly on the rational value by
`f64_le_zero` and `f64_not_finite` below. -/
def parseFloat (cs : List Char) : Option ℚ :=
  let (sign, rest) : ℚ × List Char :=
    match cs with
    | '+' :: r => (1, r)
    | '-' :: r => (-1, r)
    | r => (1, r)
  let intDigits := rest.takeWhile Char.isDigit
  let afterInt := rest.dropWhile Char.isDigit
  match afterInt with
  | [] => if intDigits = [] then none else some (sign * (digitsToNat intDigits : ℚ))
  | '.' :: fracPart =>
    if fracPart.all Char.isDigit then
      if intDigits = [] ∧ fracPart = [] then none
      else some (sign * ((digitsToNat intDigits : ℚ) + fracVal fracPart))
    else none
  | _ => none

/-- The parsed f64 of an exact literal value `q` satisfies
`amount <= 0.0` exactly when `q ≤ 2^(-1075)`: a nonpositive exact value
rounds to a nonpositive double (including `-∞` on negative overflow and
`-0.0` on negative underflow), and a positive value up to `2^(-1075)` —
the midpoint below the smallest subnormal `2^(-1074)` — underflows to
`0.0` (the tie rounds to the even candidate `0`), while anything above
the midpoint rounds to at least `2^(-1074) > 0`. -/
def f64_le_zero (q : ℚ) : Bool := q ≤ 1 / 2 ^ (1075 : ℕ)

/-- The parsed f64 of an exact literal value `q` fails
`amount.is_finite()` exactly when `|q| ≥ 2^1024 - 2^970`: magnitudes
from the midpoint above the largest finite double `2^1024 - 2^971`
round (with unbounded exponent) to `2^1024` — the tie goes to that even
candidate — and therefore overflow to `±∞`. -/
def f64_not_finite (q : ℚ) : Bool := 2 ^ (1024 : ℕ) - 2 ^ (970 : ℕ) ≤ |q|

/-- `calc::parse_fiat_amount`: split at the first ASCII-alphabetic
character, require a non-empty numeric prefix, a known fiat suffix and a
parsed amount that is strictly positive and finite as an f64 (the
`amount <= 0.0 || !amount.is_finite()` rejection of the source, rendered
on the exact value by `f64_le_zero` and `f64_not_finite`).  The stored
amount is kept as the exact rational, the declared f64-as-ℚ abstraction
used throughout this development. -/
def parse_fiat_amount (s : String) : Option FiatAmount :=
  match s.data.findIdx? Char.isAlpha with
  | none => none
  | some alphaStart =>
    if alphaStart = 0 then none
    else
      let numPart := s.data.take alphaStart
      let codePart := s.data.drop alphaStart
      let codeUpper := String.mk (codePart.map Char.toUpper)
      if KNOWN_FIAT.contains codeUpper then
        match parseFloat numPart with
        | none => none
        | some amount =>
          if f64_le_zero amount ∨ f64_not_finite amount then none
          else some ⟨amount, codeUpper⟩
      else none

/-- `calc::is_known_fiat`. -/
def is_known_fiat (s : String) : Bool := KNOWN_FIAT.contains (strUpper s)

/-- `calc::fiat_name`. -/
def fiat_name (code : String) : String :=
  let u := strUpper code
  if u = "USD" then "US Dollar"
  else if u = "EUR" then "Euro"
  else if u = "GBP" then "British Pound"
  else if u = "JPY" then "Japanese Yen"
  else if u = "CNY" then "Chinese Yuan"
  else if u = "CAD" then "Canadian Dollar"
  else if u = "AUD" then "Australian Dollar"
  else if u = "CHF" then "Swiss Franc"
  else if u = "KRW" then "South Korean Won"
  else if u = "INR" then "Indian Rupee"
  else if u = "BRL" then "Brazilian Real"
  else if u = "RUB" then "Russian Ruble"
  else if u = "TRY" then "Turkish Lira"
  else if u = "ZAR" then "South African Rand"
  else if u = "MXN" then "Mexican Peso"
  else if u = "SGD" then "Singapore Dollar"
  else if u = "HKD" then "Hong Kong Dollar"
  else if u = "NOK" then "Norwegian Krone"
  else if u = "SEK" then "Swedish Krona"
  else if u = "DKK" then "Danish Krone"
  else if u = "NZD" then "New Zealand Dollar"
  else if u = "PLN" then "Polish Zloty"
  else if u = "THB" then "Thai Baht"
  else if u = "TWD" then "New Taiwan Dollar"
  else if u = "CZK" then "Czech Koruna"
  else if u = "HUF" then "Hungarian Forint"
  else if u = "ILS" then "Israeli Shekel"
  else if u = "PHP" then "Philippine Peso"
  else if u = "MYR" then "Malaysian Ringgit"
  else if u = "ARS" then "Argentine Peso"
  else if u = "CLP" then "Chilean Peso"
  else if u = "COP" then "Colombian Peso"
  else if u = "IDR" then "Indonesian Rupiah"
  else if u = "SAR" then "Saudi Riyal"
  else if u = "AED" then "UAE Dirham"
  else if u = "NGN" then "Nigerian Naira"
  else if u = "VND" then "Vietnamese Dong"
  else if u = "PKR" then "Pakistani Rupee"
  else if u = "BDT" then "Bangladeshi Taka"
  else if u = "EGP" then "Egyptian Pound"
  else code

/-! ## Calc-mode target partition (src/main.rs, run) -/

/-- The partition of calc-mode targets into fiat currency codes and
crypto symbols (`targets.into_iter().partition(|t| calc::is_known_fiat(t))`). -/
def partition_targets (targets : List String) : List String × List String :=
  targets.partition fun t => is_known_fiat t

/-! ## Helper lemmas on characters -/

theorem toUpper_eq_self_of_not_alpha (c : Char) (h : c.isAlpha = false) : c.toUpper = c := by
  have hn : ¬(c.toNat ≥ 97 ∧ c.toNat ≤ 122) := by
    simp only [Char.isAlpha, Char.isUpper, Char.isLower, Bool.or_eq_false_iff,
      Bool.and_eq_false_iff, decide_eq_false_iff_not] at h
    have hlow := h.2
    simp only [Char.toNat, UInt32.le_def, BitVec.le_def] at hlow ⊢
    rcases hlow with h1 | h2
    · intro hc; exact h1 (by exact_mod_cast hc.1)
    · intro hc; exact h2 (by exact_mod_cast hc.2)
  simp only [Char.toUpper]
  rw [if_neg hn]

theorem isAlpha_of_toUpper_isAlpha (c : Char) (h : (Char.toUpper c).isAlpha = true) :
    c.isAlpha = true := by
  by_cases hc : c.isAlpha = true
  · exact hc
  · rw [toUpper_eq_self_of_not_alpha c (by simpa using hc)] at h
    exact h

/-- Every recognized fiat code consists of alphabetic characters, so any
character list whose uppercased form is a known code is alphabetic. -/
theorem all_alpha_of_known_code (l : List Char)
    (h : KNOWN_FIAT.contains (String.mk (l.map Char.toUpper)) = true) :
    l.all Char.isAlpha = true := by
  have hcodes : ∀ code ∈ KNOWN_FIAT, code.data.all Char.isAlpha = true := by decide
  have hmem : String.mk (l.map Char.toUpper) ∈ KNOWN_FIAT := List.elem_iff.mp h
  have hdata : (l.map Char.toUpper).all Char.isAlpha = true := hcodes _ hmem
  rw [List.all_eq_true] at hdata ⊢
  intro c hc
  exact isAlpha_of_toUpper_isAlpha c (hdata _ (List.mem_map_of_mem _ hc))

/-- Unfolding equation for `parse_fiat_amount` with its local bindings
zeta-reduced, convenient for case analysis. -/
theorem parse_fiat_amount_eq (s : String) :
    parse_fiat_amount s =
      match s.data.findIdx? Char.isAlpha with
      | none => none
      | some alphaStart =>
        if alphaStart = 0 then none
        else
          if KNOWN_FIAT.contains (String.mk ((s.data.drop alphaStart).map Char.toUpper)) then
            match parseFloat (s.data.take alphaStart) with
            | none => none
            | some amount =>
              if f64_le_zero amount ∨ f64_not_finite amount then none
              else some ⟨amount, String.mk ((s.data.drop alphaStart).map Char.toUpper)⟩
          else none := rfl

/-! ## Price and conversion data (src/provider/mod.rs, src/calc.rs)

`f64` fields are modelled as `ℚ`; `chrono::DateTime<Utc>` timestamps as
`Int` (seconds). -/

structure CoinPrice where
  symbol : String
  name : String
  price : ℚ
  change_24h : Option ℚ
  market_cap : Option ℚ
  currency : String
  provider : String
  timestamp : Int
  deriving DecidableEq, Inhabited

structure Conversion where
  from_amount : ℚ
  from_currency : String
  to_symbol : String
  to_name : String
  to_amount : ℚ
  rate : ℚ
  provider : String
  timestamp : Int
  deriving DecidableEq

/-- The Frankfurter rate response (`HashMap<String, f64>` keyed by
uppercase target code), modelled as an association list with first-match
lookup. -/
def RatesMap : Type := List (String × ℚ)

def rates_get (rates : RatesMap) (code : String) : Option ℚ :=
  (List.find? (fun e => decide (e.1 = code)) rates).map (·.2)

/-- The calc-mode merge for the both-fiat-and-crypto branch of `run`
(src/main.rs): a single `conversions` vector is filled by first looping
over the requested fiat targets (pushing a conversion when the rate
response contains the uppercased code, silently dropping the target
otherwise; `to_amount = amount * rate`, stored `rate = 1 / rate`), then
looping over the fetched crypto prices in fetch order
(`to_amount = amount / price`, stored `rate = price`).  The two fetches
run under `tokio::join!` in the source; the merge only sees the two
completed results, so it is a pure function of them and its output order
is independent of which fetch finished first. -/
def calc_merge (amount : ℚ) (currency : String) (fiat_targets : List String)
    (rates : RatesMap) (prices : List CoinPrice) (now : Int) : List Conversion :=
  let afterFiat :=
    fiat_targets.foldl
      (fun acc target =>
        let upper := strUpper target
        match rates_get rates upper with
        | some rate =>
          acc ++ [⟨amount, currency, upper, fiat_name upper, amount * rate, 1 / rate,
                   "Frankfurter/ECB", now⟩]
        | none => acc)
      []
  prices.foldl
    (fun acc p =>
      acc ++ [⟨amount, currency, p.symbol, p.name, amount / p.price, p.price,
               p.provider, now⟩])
    afterFiat

/-! ## Claim theorems: cache, partition guard, fiat parsing -/

/-- C5: cache round-trip.  Writing a value and immediately reading it back
with a positive TTL returns the value unchanged, and a read misses exactly
when the file is absent, the payload fails to deserialize, or the envelope
age is negative or strictly greater than the TTL; an age equal to the TTL
is still a hit.  The filesystem is modelled as an explicit store with the
cache root available; `now` stands for `Utc::now().timestamp()` at the
moment of each call, and an immediate read is one at the write's `now`. -/
theorem C5_cache_roundtrip (T : Type) (fs : FsState T) (ns k : String) (v : T)
    (ttl now : Int) :
    (0 < ttl → read_json (write_json fs ns k v now) ns k ttl now = some v) ∧
    (read_json fs ns k ttl now = none ↔
      fs_lookup fs ns k = none ∨ fs_lookup fs ns k = some none ∨
      ∃ env, fs_lookup fs ns k = some (some env) ∧
        (now - env.fetched_at_unix < 0 ∨ now - env.fetched_at_unix > ttl)) ∧
    (∀ env, fs_lookup fs ns k = some (some env) → now - env.fetched_at_unix = ttl →
      0 ≤ ttl → read_json fs ns k ttl now = some env.value) := by
  refine ⟨?_, ?_, ?_⟩
  · intro httl
    have hfind : fs_lookup (write_json fs ns k v now) ns k = some (some ⟨now, v⟩) := by
      simp [fs_lookup, write_json, fs_insert, List.find?]
    simp only [read_json, hfind]
    have : ¬(now - now < 0 ∨ now - now > ttl) := by omega
    rw [if_neg this]
  · cases hlook : fs_lookup fs ns k with
    | none => simp [read_json, hlook]
    | some content =>
      cases content with
      | none => simp [read_json, hlook]
      | some env =>
        simp only [read_json, hlook]
        by_cases hage : now - env.fetched_at_unix < 0 ∨ now - env.fetched_at_unix > ttl
        · simp only [hage, if_true]
          constructor
          · intro _; exact Or.inr (Or.inr ⟨env, rfl, hage⟩)
          · intro _; trivial
        · simp only [hage, if_false]
          constructor
          · intro hcontra; exact absurd hcontra (by simp)
          · rintro (hc | hc | ⟨env2, henv2, hage2⟩)
            · exact absurd hc (by simp)
            · exact absurd hc (by simp)
            · simp only [Option.some.injEq] at henv2
              subst henv2
              exact absurd hage2 hage
  · intro env henv hage httl
    simp only [read_json, henv]
    have : ¬(now - env.fetched_at_unix < 0 ∨ now - env.fetched_at_unix > ttl) := by omega
    rw [if_neg this]

/-- Witness for C5 at concrete inputs. -/
theorem C5_cache_roundtrip_witness :
    read_json (write_json ([] : FsState Nat) "frankfurter" "latest" 7 100)
      "frankfurter" "latest" 5 100 = some 7 :=
  (C5_cache_roundtrip Nat [] "frankfurter" "latest" 7 5 100).1 (by decide)

/-- C9: the fail-fast `unreachable!()` arm of the calc-mode fiat/crypto
match is dead code under the earlier non-empty-target guard: partitioning
a non-empty target list never yields two empty sublists. -/
theorem C9_partition_nonempty (targets : List String) (h : targets ≠ []) :
    ¬((partition_targets targets).1 = [] ∧ (partition_targets targets).2 = []) := by
  rintro ⟨h1, h2⟩
  cases targets with
  | nil => exact h rfl
  | cons t ts =>
    rw [partition_targets, List.partition_eq_filter_filter] at h1 h2
    simp only [List.filter_cons] at h1 h2
    by_cases hp : is_known_fiat t = true
    · rw [if_pos hp] at h1; exact List.cons_ne_nil _ _ h1
    · rw [if_pos (by simp [Function.comp, hp])] at h2
      exact List.cons_ne_nil _ _ h2

/-- Witness for C9 at a concrete non-empty target list. -/
theorem C9_partition_nonempty_witness :
    ¬((partition_targets ["eur", "btc"]).1 = [] ∧ (partition_targets ["eur", "btc"]).2 = []) :=
  C9_partition_nonempty ["eur", "btc"] (by decide)

theorem pos_of_f64_le_zero_eq_false {q : ℚ} (h : f64_le_zero q = false) : 0 < q := by
  rw [f64_le_zero, decide_eq_false_iff_not] at h
  push_neg at h
  have hpos : (0 : ℚ) < 1 / 2 ^ (1075 : ℕ) := by positivity
  linarith

/-- C10: `parse_fiat_amount` returns a value exactly when the input splits
at its first ASCII-alphabetic character into a non-empty prefix that
parses as a number and a suffix whose uppercase form is a known fiat
code, with the parsed amount strictly positive and finite as an f64
(neither nonpositive, nor underflowing to `0.0`, nor overflowing to
`±∞`); then the returned currency is the uppercased suffix (which is
fully alphabetic) and the returned amount is the parsed value.  An input
whose parsed amount fails the positivity-and-finiteness test is
rejected, as is any input starting with an alphabetic character. -/
theorem C10_parse_fiat_amount (s : String) (fa : FiatAmount) :
    (parse_fiat_amount s = some fa ↔
      ∃ kk q, s.data.findIdx? Char.isAlpha = some kk ∧ kk ≠ 0 ∧
        KNOWN_FIAT.contains (String.mk ((s.data.drop kk).map Char.toUpper)) = true ∧
        parseFloat (s.data.take kk) = some q ∧
        f64_le_zero q = false ∧ f64_not_finite q = false ∧
        fa = ⟨q, String.mk ((s.data.drop kk).map Char.toUpper)⟩) ∧
    (parse_fiat_amount s = some fa →
      0 < fa.amount ∧ f64_not_finite fa.amount = false ∧
      KNOWN_FIAT.contains fa.currency = true ∧
      ∀ kk, s.data.findIdx? Char.isAlpha = some kk →
        (s.data.drop kk).all Char.isAlpha = true ∧
        fa.currency = String.mk ((s.data.drop kk).map Char.toUpper)) ∧
    (∀ kk q, s.data.findIdx? Char.isAlpha = some kk →
      parseFloat (s.data.take kk) = some q →
      f64_le_zero q = true ∨ f64_not_finite q = true →
      parse_fiat_amount s = none) ∧
    (∀ c rest, s.data = c :: rest → c.isAlpha = true → parse_fiat_amount s = none) := by
  have hsome : ∀ kk0, s.data.findIdx? Char.isAlpha = some kk0 →
      parse_fiat_amount s =
        (if kk0 = 0 then none
         else
           if KNOWN_FIAT.contains (String.mk ((s.data.drop kk0).map Char.toUpper)) then
             match parseFloat (s.data.take kk0) with
             | none => none
             | some amount =>
               if f64_le_zero amount ∨ f64_not_finite amount then none
               else some ⟨amount, String.mk ((s.data.drop kk0).map Char.toUpper)⟩
           else none) := by
    intro kk0 h; rw [parse_fiat_amount_eq, h]
  have hiff : parse_fiat_amount s = some fa ↔
      ∃ kk q, s.data.findIdx? Char.isAlpha = some kk ∧ kk ≠ 0 ∧
        KNOWN_FIAT.contains (String.mk ((s.data.drop kk).map Char.toUpper)) = true ∧
        parseFloat (s.data.take kk) = some q ∧
        f64_le_zero q = false ∧ f64_not_finite q = false ∧
        fa = ⟨q, String.mk ((s.data.drop kk).map Char.toUpper)⟩ := by
    cases hidx : s.data.findIdx? Char.isAlpha with
    | none =>
      have hn : parse_fiat_amount s = none := by rw [parse_fiat_amount_eq, hidx]
      simp [hn]
    | some kk0 =>
      rw [hsome kk0 hidx]
      by_cases h0 : kk0 = 0
      · subst h0
        simp only [if_pos rfl]
        constructor
        · intro hcontra; exact absurd hcontra (by simp)
        · rintro ⟨kk, q, hkk, hne, -⟩
          injection hkk with hkk
          exact absurd hkk.symm hne
      · rw [if_neg h0]
        by_cases hk : KNOWN_FIAT.contains (String.mk ((s.data.drop kk0).map Char.toUpper)) = true
        · rw [if_pos hk]
          cases hpf : parseFloat (s.data.take kk0) with
          | none => simp [h0, hpf]
          | some q0 =>
            change (if f64_le_zero q0 ∨ f64_not_finite q0 then (none : Option FiatAmount)
              else some ⟨q0, String.mk ((s.data.drop kk0).map Char.toUpper)⟩) = some fa ↔ _
            by_cases hq : (f64_le_zero q0 = true ∨ f64_not_finite q0 = true)
            · rw [if_pos hq]
              constructor
              · intro hcontra; exact absurd hcontra (by simp)
              · rintro ⟨kk, q, hkk, -, -, hq2, hle, hnf, rfl⟩
                injection hkk with hkk
                subst hkk
                rw [hpf] at hq2
                injection hq2 with hq2
                subst hq2
                rcases hq with hq | hq
                · rw [hle] at hq; exact absurd hq (by simp)
                · rw [hnf] at hq; exact absurd hq (by simp)
            · rw [if_neg hq]
              constructor
              · intro h
                injection h with h
                exact ⟨kk0, q0, rfl, h0, hk, hpf, by simpa using (not_or.mp hq).1,
                  by simpa using (not_or.mp hq).2, h.symm⟩
              · rintro ⟨kk, q, hkk, -, -, hq2, -, -, rfl⟩
                injection hkk with hkk
                subst hkk
                rw [hpf] at hq2
                injection hq2 with hq2
                subst hq2
                rfl
        · rw [if_neg hk]
          constructor
          · intro hcontra; exact absurd hcontra (by simp)
          · rintro ⟨kk, q, hkk, -, hk2, -⟩
            injection hkk with hkk
            subst hkk
            exact absurd hk2 hk
  refine ⟨hiff, ?_, ?_, ?_⟩
  · intro h
    obtain ⟨kk, q, hkk, -, hk, -, hle, hnf, rfl⟩ := hiff.mp h
    refine ⟨pos_of_f64_le_zero_eq_false hle, hnf, hk, ?_⟩
    intro kk2 hkk2
    rw [hkk] at hkk2
    injection hkk2 with hkk2
    subst hkk2
    exact ⟨all_alpha_of_known_code _ hk, rfl⟩
  · intro kk q hkk hpf hrange
    rw [hsome kk hkk]
    by_cases h0 : kk = 0
    · rw [if_pos h0]
    · rw [if_neg h0]
      by_cases hk : KNOWN_FIAT.contains (String.mk ((s.data.drop kk).map Char.toUpper)) = true
      · rw [if_pos hk, hpf]
        change (if f64_le_zero q ∨ f64_not_finite q then (none : Option FiatAmount)
          else some ⟨q, String.mk ((s.data.drop kk).map Char.toUpper)⟩) = none
        rw [if_pos hrange]
      · rw [if_neg hk]
  · intro c rest hdata hc
    rw [parse_fiat_amount_eq, hdata]
    simp [List.findIdx?_cons, hc]

/-- Witness for C10: the first-char-alphabetic rejection, the
range-check rejection (a parsed `0` underflows the positivity test), and
the iff applied on the accepting side. -/
theorem C10_parse_fiat_amount_witness :
    parse_fiat_amount "btc" = none ∧
    parse_fiat_amount "0USD" = none ∧
    parse_fiat_amount "100usd" = some ⟨100, "USD"⟩ := by
  refine ⟨?_, ?_, ?_⟩
  · exact (C10_parse_fiat_amount "btc" ⟨1, "USD"⟩).2.2.2 'b' ['t', 'c'] rfl (by decide)
  · refine (C10_parse_fiat_amount "0USD" ⟨1, "USD"⟩).2.2.1 1 0 (by decide) ?_ ?_
    · simp [parseFloat, digitsToNat]
    · left
      simp only [f64_le_zero, decide_eq_true_eq]
      positivity
  · apply (C10_parse_fiat_amount "100usd" ⟨100, "USD"⟩).1.mpr
    refine ⟨3, 100, by decide, by decide, by decide, ?_, ?_, ?_, by decide⟩
    · simp [parseFloat, digitsToNat]
    · simp only [f64_le_zero, decide_eq_false_iff_not]
      intro hcontra
      have h2 : (0 : ℚ) < 1 / 2 ^ (1075 : ℕ) := by positivity
      have h3 : (1 : ℚ) / 2 ^ (1075 : ℕ) ≤ 1 := by
        rw [div_le_one (by positivity)]
        exact one_le_pow₀ (by norm_num)
      linarith
    · simp only [f64_not_finite, decide_eq_false_iff_not]
      intro hcontra
      rw [abs_of_pos (by norm_num : (0 : ℚ) < 100)] at hcontra
      have h2 : (100 : ℚ) < 2 ^ (1024 : ℕ) - 2 ^ (970 : ℕ) := by
        have ha : (2 : ℚ) ^ (970 : ℕ) + 100 < 2 ^ (971 : ℕ) := by
          rw [pow_succ]
          have : (100 : ℚ) < 2 ^ (970 : ℕ) := by
            calc (100 : ℚ) < 2 ^ (7 : ℕ) := by norm_num
            _ ≤ 2 ^ (970 : ℕ) := by
              apply pow_le_pow_right₀ (by norm_num)
              omega
          linarith
        have hb : (2 : ℚ) ^ (971 : ℕ) ≤ 2 ^ (1024 : ℕ) := by
          apply pow_le_pow_right₀ (by norm_num)
          omega
        linarith
      linarith

theorem foldl_push_map {α β : Type} (f : α → β) (l : List α) (init : List β) :
    l.foldl (fun acc x => acc ++ [f x]) init = init ++ l.map f := by
  induction l generalizing init with
  | nil => simp
  | cons x xs ih => simp [List.foldl_cons, ih]

theorem fiat_fold_eq (amount : ℚ) (currency : String) (rates : RatesMap) (now : Int)
    (l : List String) (init : List Conversion) :
    l.foldl
      (fun acc target =>
        let upper := strUpper target
        match rates_get rates upper with
        | some rate =>
          acc ++ [⟨amount, currency, upper, fiat_name upper, amount * rate, 1 / rate,
                   "Frankfurter/ECB", now⟩]
        | none => acc)
      init =
    init ++
      l.filterMap
        (fun target =>
          (rates_get rates (strUpper target)).map fun rate =>
            ⟨amount, currency, strUpper target, fiat_name (strUpper target),
             amount * rate, 1 / rate, "Frankfurter/ECB", now⟩) := by
  induction l generalizing init with
  | nil => simp
  | cons x xs ih =>
    cases hx : rates_get rates (strUpper x) with
    | none => simp only [List.foldl_cons, List.filterMap_cons, hx, Option.map_none]; exact ih init
    | some rate =>
      simp only [List.foldl_cons, List.filterMap_cons, hx, Option.map_some]
      rw [ih]
      simp

/-- C7: the calc-mode merge always lists the fiat conversions first, in
requested target order, each with `to_amount = amount * rate` and stored
rate `1 / rate`, silently dropping targets absent from the rate response;
followed by the crypto conversions in fetch order with
`to_amount = amount / price` and stored rate `price`.  The merge is a
pure function of the two joined fetch results, so this order is
independent of which concurrent fetch finished first.  The second
conjunct is the spec's concrete example (100 USD, EUR rate 0.92, BTC at
50000 USD). -/
theorem C7_calc_merge_order :
    (∀ (amount : ℚ) (currency : String) (fiat_targets : List String)
        (rates : RatesMap) (prices : List CoinPrice) (now : Int),
      calc_merge amount currency fiat_targets rates prices now =
        fiat_targets.filterMap
          (fun target =>
            (rates_get rates (strUpper target)).map fun rate =>
              ⟨amount, currency, strUpper target, fiat_name (strUpper target),
               amount * rate, 1 / rate, "Frankfurter/ECB", now⟩) ++
        prices.map
          (fun p => ⟨amount, currency, p.symbol, p.name, amount / p.price, p.price,
                     p.provider, now⟩)) ∧
    calc_merge 100 "USD" ["EUR"] [("EUR", 23/25)]
        [⟨"BTC", "Bitcoin", 50000, none, none, "USD", "CoinGecko", 0⟩] 0 =
      [⟨100, "USD", "EUR", "Euro", 92, 25/23, "Frankfurter/ECB", 0⟩,
       ⟨100, "USD", "BTC", "Bitcoin", 1/500, 50000, "CoinGecko", 0⟩] := by
  have hmain : ∀ (amount : ℚ) (currency : String) (fiat_targets : List String)
      (rates : RatesMap) (prices : List CoinPrice) (now : Int),
      calc_merge amount currency fiat_targets rates prices now =
        fiat_targets.filterMap
          (fun target =>
            (rates_get rates (strUpper target)).map fun rate =>
              ⟨amount, currency, strUpper target, fiat_name (strUpper target),
               amount * rate, 1 / rate, "Frankfurter/ECB", now⟩) ++
        prices.map
          (fun p => ⟨amount, currency, p.symbol, p.name, amount / p.price, p.price,
                     p.provider, now⟩) := by
    intro amount currency fiat_targets rates prices now
    unfold calc_merge
    rw [foldl_push_map, fiat_fold_eq]
    simp
  refine ⟨hmain, ?_⟩
  rw [hmain]
  have hsu : strUpper "EUR" = "EUR" := by decide
  have hfn : fiat_name "EUR" = "Euro" := by decide
  have hrg : rates_get [("EUR", 23/25)] "EUR" = some (23/25) := rfl
  simp only [List.filterMap_cons, List.filterMap_nil, hsu, hfn, hrg, Option.map_some,
    List.map_cons, List.map_nil, List.nil_append, List.cons_append, List.singleton_append]
  norm_num [Conversion.mk.injEq]

/-! ## Providers and the resolver (src/provider/mod.rs, src/main.rs)

A provider is embedded as its identity plus its response behaviour for
the one request each aggregation loop issues to it: since every provider
is consulted at most once per operation, an async provider call is a
pure function of the request.  `TickerMatch` is the struct constructed in
provider/yahoo.rs and provider/stooq.rs with fields
{symbol, name, exchange, asset_type, provider}; its declaration site in
provider/mod.rs is truncated in the provided sources, so the field list
is taken from those construction sites (it matches the spec's data
model). -/

structure TickerMatch where
  symbol : String
  name : String
  exchange : String
  asset_type : String
  provider : String
  deriving DecidableEq, Inhabited

structure Provider where
  id : String
  name : String
  getPrices : List String → String → Except Error (List CoinPrice)
  searchTickers : String → Nat → Except Error (List TickerMatch)

/-- Indexing `providers[i]` for an out-of-range `i` panics in Rust; the
aggregation loops only receive indices produced by the resolver, which
are always in range, so the default provider below is never consulted on
a modelled run. -/
instance : Inhabited Provider :=
  ⟨⟨"", "", fun _ _ => .error .NoResults, fun _ _ => .error .NoResults⟩⟩

/-- `provider::get_provider`: first index whose `id` matches exactly. -/
def get_provider (providers : List Provider) (id : String) : Option Nat :=
  providers.findIdx? fun p => p.id = id

/-- The `[defaults].provider_order` loop of `resolve_provider_indices`:
trim each configured id, skip empties, normalize to ASCII lowercase,
skip ids already seen, and fail on ids matching no provider; `seen`
models the `HashSet` of normalized ids, `ordered` the accumulated index
list. -/
def config_loop (providers : List Provider) :
    List String → List String → List Nat → Except Error (List String × List Nat)
  | [], seen, ordered => .ok (seen, ordered)
  | configured_id :: rest, seen, ordered =>
    let raw := strTrim configured_id
    if raw = "" then config_loop providers rest seen ordered
    else
      let normalized := strLower raw
      if normalized ∈ seen then config_loop providers rest seen ordered
      else
        match get_provider providers normalized with
        | none =>
          .error (.Config ("unknown provider " ++ configured_id ++
            " in [defaults].provider_order -- use --list-providers to see options"))
        | some idx => config_loop providers rest (normalized :: seen) (ordered ++ [idx])

/-- The registration-order loop of `resolve_provider_indices`: append
every provider whose raw id has not been seen yet. -/
def registration_loop (providers : List Provider) (seen : List String)
    (ordered : List Nat) : List Nat :=
  (providers.enum.foldl
    (fun st pair =>
      if pair.2.id ∈ st.1 then st else (pair.2.id :: st.1, st.2 ++ [pair.1]))
    (seen, ordered)).2

/-- `resolve_provider_indices` (src/main.rs). -/
def resolve_provider_indices (providers : List Provider)
    (explicit_provider : Option String) (configured_order : Option (List String)) :
    Except Error (List Nat) :=
  match explicit_provider with
  | some provider_id =>
    let requested := strTrim provider_id
    if requested = "" then
      .error (.Config "provider cannot be empty -- use --list-providers to see options")
    else
      match get_provider providers requested with
      | none =>
        .error (.Config ("unknown provider " ++ provider_id ++
          " -- use --list-providers to see options"))
      | some idx => .ok [idx]
  | none =>
    match config_loop providers (configured_order.getD []) [] [] with
    | .error e => .error e
    | .ok (seen, ordered) =>
      let final := registration_loop providers seen ordered
      if final = [] then
        .error (.Config "no providers available -- use --list-providers to verify installation")
      else .ok final

/-! ## Resolver characterization -/

/-- The configured ids after trimming, dropping empties and lowercasing
(the per-id normalisation of the config loop, without deduplication). -/
def normalizeConfig (configured : List String) : List String :=
  configured.filterMap fun c =>
    let raw := strTrim c
    if raw = "" then none else some (strLower raw)

/-- First-occurrence deduplication relative to an already-seen set. -/
def dedupFrom (seen : List String) : List String → List String
  | [] => []
  | a :: l => if a ∈ seen then dedupFrom seen l else a :: dedupFrom (a :: seen) l

theorem get_provider_eq_some {providers : List Provider} {id : String} {idx : Nat}
    (h : get_provider providers id = some idx) :
    ∃ hlt : idx < providers.length, (providers.get ⟨idx, hlt⟩).id = id := by
  rw [get_provider, List.findIdx?_eq_some_iff_getElem] at h
  obtain ⟨hlt, hp, -⟩ := h
  exact ⟨hlt, by simpa using hp⟩

theorem config_loop_ok (providers : List Provider) (ids : List String) :
    ∀ (seen : List String) (ordered : List Nat),
      (∀ x ∈ dedupFrom seen (normalizeConfig ids), (get_provider providers x).isSome) →
      config_loop providers ids seen ordered =
        .ok ((dedupFrom seen (normalizeConfig ids)).reverse ++ seen,
             ordered ++ (dedupFrom seen (normalizeConfig ids)).filterMap (get_provider providers)) := by
  induction ids with
  | nil => intro seen ordered _; simp [config_loop, dedupFrom, normalizeConfig]
  | cons c rest ih =>
    intro seen ordered hknown
    by_cases hraw : strTrim c = ""
    · have hnorm : normalizeConfig (c :: rest) = normalizeConfig rest := by
        simp [normalizeConfig, List.filterMap_cons, hraw]
      rw [hnorm] at hknown ⊢
      show config_loop providers (c :: rest) seen ordered = _
      rw [config_loop, if_pos hraw]
      exact ih seen ordered hknown
    · have hnorm : normalizeConfig (c :: rest) =
          strLower (strTrim c) :: normalizeConfig rest := by
        simp [normalizeConfig, List.filterMap_cons, hraw]
      rw [hnorm] at hknown ⊢
      by_cases hseen : strLower (strTrim c) ∈ seen
      · rw [config_loop, if_neg hraw, if_pos hseen]
        rw [show dedupFrom seen (strLower (strTrim c) :: normalizeConfig rest) =
          dedupFrom seen (normalizeConfig rest) from by rw [dedupFrom, if_pos hseen]]
        rw [show dedupFrom seen (strLower (strTrim c) :: normalizeConfig rest) =
          dedupFrom seen (normalizeConfig rest) from by rw [dedupFrom, if_pos hseen]] at hknown
        exact ih seen ordered hknown
      · have hded : dedupFrom seen (strLower (strTrim c) :: normalizeConfig rest) =
            strLower (strTrim c) :: dedupFrom (strLower (strTrim c) :: seen) (normalizeConfig rest) := by
          rw [dedupFrom, if_neg hseen]
        rw [hded] at hknown ⊢
        obtain ⟨idx, hidx⟩ := Option.isSome_iff_exists.mp (hknown _ (List.mem_cons_self _ _))
        rw [config_loop, if_neg hraw, if_neg hseen, hidx]
        show config_loop providers rest (strLower (strTrim c) :: seen) (ordered ++ [idx]) = _
        rw [ih (strLower (strTrim c) :: seen) (ordered ++ [idx])
          (fun x hx => hknown x (List.mem_cons_of_mem _ hx))]
        simp [List.filterMap_cons, hidx]

theorem config_loop_err (providers : List Provider) (ids : List String) :
    ∀ (seen : List String) (ordered : List Nat),
      (∃ cid ∈ ids, strTrim cid ≠ "" ∧ get_provider providers (strLower (strTrim cid)) = none) →
      (∀ x ∈ seen, get_provider providers x ≠ none) →
      ∃ msg, config_loop providers ids seen ordered = .error (.Config msg) := by
  induction ids with
  | nil => rintro seen ordered ⟨cid, hmem, -⟩ -; exact absurd hmem (List.not_mem_nil cid)
  | cons c rest ih =>
    rintro seen ordered ⟨cid, hmem, hne, hnone⟩ hseen
    by_cases hraw : strTrim c = ""
    · rw [config_loop, if_pos hraw]
      rcases List.mem_cons.mp hmem with rfl | hmem2
      · exact absurd hraw hne
      · exact ih seen ordered ⟨cid, hmem2, hne, hnone⟩ hseen
    · by_cases hseenc : strLower (strTrim c) ∈ seen
      · rw [config_loop, if_neg hraw, if_pos hseenc]
        rcases List.mem_cons.mp hmem with rfl | hmem2
        · exact absurd hnone (hseen _ hseenc)
        · exact ih seen ordered ⟨cid, hmem2, hne, hnone⟩ hseen
      · cases hg : get_provider providers (strLower (strTrim c)) with
        | none =>
          refine ⟨"unknown provider " ++ c ++
            " in [defaults].provider_order -- use --list-providers to see options", ?_⟩
          rw [config_loop, if_neg hraw, if_neg hseenc, hg]
        | some idx =>
          rw [config_loop, if_neg hraw, if_neg hseenc, hg]
          rcases List.mem_cons.mp hmem with rfl | hmem2
          · rw [hg] at hnone; exact absurd hnone (by simp)
          · refine ih _ _ ⟨cid, hmem2, hne, hnone⟩ ?_
            intro x hx
            rcases List.mem_cons.mp hx with rfl | hx2
            · rw [hg]; simp
            · exact hseen x hx2

theorem registration_fold (L : List (Nat × Provider)) :
    ∀ (seen : List String) (ordered : List Nat),
      (L.map fun pr => pr.2.id).Nodup →
      (L.foldl
        (fun st pair =>
          if pair.2.id ∈ st.1 then st else (pair.2.id :: st.1, st.2 ++ [pair.1]))
        (seen, ordered)).2 =
        ordered ++ (L.filter fun pr => decide (pr.2.id ∉ seen)).map Prod.fst := by
  induction L with
  | nil => intro seen ordered _; simp
  | cons pr rest ih =>
    intro seen ordered hnodup
    rw [List.map_cons, List.nodup_cons] at hnodup
    by_cases hmem : pr.2.id ∈ seen
    · rw [List.foldl_cons, if_pos hmem, List.filter_cons, if_neg (by simpa using hmem)]
      exact ih seen ordered hnodup.2
    · rw [List.foldl_cons, if_neg hmem, List.filter_cons, if_pos (by simpa using hmem)]
      rw [ih (pr.2.id :: seen) (ordered ++ [pr.1]) hnodup.2]
      have hcongr : rest.filter (fun pr2 => decide (pr2.2.id ∉ pr.2.id :: seen)) =
          rest.filter (fun pr2 => decide (pr2.2.id ∉ seen)) := by
        apply List.filter_congr
        intro x hx
        have hxid : x.2.id ≠ pr.2.id := by
          intro hcontra
          exact hnodup.1 (hcontra ▸ List.mem_map_of_mem (fun pr2 => pr2.2.id) hx)
        simp only [decide_eq_decide, List.mem_cons]
        constructor
        · intro h hc; exact h (Or.inr hc)
        · rintro h (hc | hc)
          · exact hxid hc
          · exact h hc
      rw [hcongr]
      simp

theorem mem_dedupFrom {x : String} : ∀ {seen l : List String},
    x ∈ dedupFrom seen l ↔ x ∈ l ∧ x ∉ seen := by
  intro seen l
  induction l generalizing seen with
  | nil => simp [dedupFrom]
  | cons a rest ih =>
    by_cases ha : a ∈ seen
    · rw [dedupFrom, if_pos ha, ih]
      constructor
      · rintro ⟨h1, h2⟩; exact ⟨List.mem_cons_of_mem _ h1, h2⟩
      · rintro ⟨h1, h2⟩
        rcases List.mem_cons.mp h1 with rfl | h1
        · exact absurd ha h2
        · exact ⟨h1, h2⟩
    · rw [dedupFrom, if_neg ha]
      constructor
      · intro h
        rcases List.mem_cons.mp h with rfl | h
        · exact ⟨List.mem_cons_self _ _, ha⟩
        · rw [ih] at h
          refine ⟨List.mem_cons_of_mem _ h.1, fun hc => h.2 (List.mem_cons_of_mem _ hc)⟩
      · rintro ⟨h1, h2⟩
        rcases List.mem_cons.mp h1 with rfl | h1
        · exact List.mem_cons_self _ _
        · by_cases hxa : x = a
          · subst hxa; exact List.mem_cons_self _ _
          · exact List.mem_cons_of_mem _ (ih.mpr ⟨h1, by
              intro hc
              rcases List.mem_cons.mp hc with hc | hc
              · exact hxa hc
              · exact h2 hc⟩)

theorem dedupFrom_nodup : ∀ (seen l : List String), (dedupFrom seen l).Nodup := by
  intro seen l
  induction l generalizing seen with
  | nil => simp [dedupFrom]
  | cons a rest ih =>
    by_cases ha : a ∈ seen
    · rw [dedupFrom, if_pos ha]; exact ih seen
    · rw [dedupFrom, if_neg ha]
      refine List.nodup_cons.mpr ⟨?_, ih _⟩
      intro hc
      exact (mem_dedupFrom.mp hc).2 (List.mem_cons_self _ _)

theorem mem_normalizeConfig {cfg : List String} {x : String} :
    x ∈ normalizeConfig cfg ↔
      ∃ cid ∈ cfg, strTrim cid ≠ "" ∧ x = strLower (strTrim cid) := by
  rw [normalizeConfig, List.mem_filterMap]
  constructor
  · rintro ⟨cid, hcid, hx⟩
    by_cases hraw : strTrim cid = ""
    · rw [if_pos hraw] at hx; exact absurd hx (by simp)
    · rw [if_neg hraw] at hx
      exact ⟨cid, hcid, hraw, (Option.some.injEq _ _).mp hx.symm⟩
  · rintro ⟨cid, hcid, hraw, rfl⟩
    exact ⟨cid, hcid, by rw [if_neg hraw]⟩

/-- C3: with no explicit provider choice, `resolve_provider_indices`
processes the configured order (trimming, lowercasing, skipping empties
and duplicates on normalized form, failing with a Configuration error on
any id matching no provider) and then appends every remaining provider
in registration order; the result has no duplicate index, and with no
providers at all the resolution is a Configuration error.  The provider
ids are assumed pairwise distinct, which the registry
(`available_providers`) guarantees. -/
theorem C3_resolver_configured_order (providers : List Provider)
    (configured : Option (List String))
    (hnodup : (providers.map Provider.id).Nodup) :
    let cfg := configured.getD []
    let configIdxs := (dedupFrom [] (normalizeConfig cfg)).filterMap (get_provider providers)
    ((∃ cid ∈ cfg, strTrim cid ≠ "" ∧
        get_provider providers (strLower (strTrim cid)) = none) →
      ∃ msg, resolve_provider_indices providers none configured = .error (.Config msg)) ∧
    ((∀ cid ∈ cfg, strTrim cid ≠ "" →
        (get_provider providers (strLower (strTrim cid))).isSome) →
      providers ≠ [] →
      resolve_provider_indices providers none configured =
        .ok (configIdxs ++
          (providers.enum.filter fun pr => decide (pr.1 ∉ configIdxs)).map Prod.fst) ∧
      (configIdxs ++
        (providers.enum.filter fun pr => decide (pr.1 ∉ configIdxs)).map Prod.fst).Nodup) ∧
    (providers = [] →
      ∃ msg, resolve_provider_indices providers none configured = .error (.Config msg)) := by
  intro cfg configIdxs
  have hresolve : resolve_provider_indices providers none configured =
      (match config_loop providers cfg [] [] with
       | .error e => .error e
       | .ok (seen, ordered) =>
         let final := registration_loop providers seen ordered
         if final = [] then
           .error (.Config "no providers available -- use --list-providers to verify installation")
         else .ok final) := rfl
  have herrCase : (∃ cid ∈ cfg, strTrim cid ≠ "" ∧
      get_provider providers (strLower (strTrim cid)) = none) →
      ∃ msg, resolve_provider_indices providers none configured = .error (.Config msg) := by
    intro hex
    obtain ⟨msg, hmsg⟩ := config_loop_err providers cfg [] [] hex (by simp)
    exact ⟨msg, by rw [hresolve, hmsg]⟩
  refine ⟨herrCase, ?_, ?_⟩
  · intro hall hne
    set processed := dedupFrom [] (normalizeConfig cfg) with hprocessed
    have hknown : ∀ x ∈ processed, (get_provider providers x).isSome := by
      intro x hx
      have hxn : x ∈ normalizeConfig cfg := (mem_dedupFrom.mp hx).1
      obtain ⟨cid, hcid, hraw, rfl⟩ := mem_normalizeConfig.mp hxn
      exact hall cid hcid hraw
    have hok := config_loop_ok providers cfg [] [] hknown
    have hnodupEnum : (providers.enum.map fun pr => pr.2.id).Nodup := by
      have : (providers.enum.map fun pr => pr.2.id) =
          (providers.enum.map Prod.snd).map Provider.id := by
        rw [List.map_map]; rfl
      rw [this, List.enum_map_snd]
      exact hnodup
    have hreg := registration_fold providers.enum (processed.reverse ++ []) configIdxs hnodupEnum
    have hid_inj : ∀ {i j : Nat} (hi : i < providers.length) (hj : j < providers.length),
        (providers.get ⟨i, hi⟩).id = (providers.get ⟨j, hj⟩).id → i = j := by
      intro i j hi hj hij
      have hmi : i < (providers.map Provider.id).length := by simpa using hi
      have hmj : j < (providers.map Provider.id).length := by simpa using hj
      refine (@List.Nodup.getElem_inj_iff _ _ hnodup _ hmi _ hmj).mp ?_
      simpa using hij
    have hmem_iff : ∀ pr ∈ providers.enum,
        (pr.2.id ∈ processed.reverse ++ [] ↔ pr.1 ∈ configIdxs) := by
      rintro ⟨i, p⟩ hpr
      have hget : providers[i]? = some p := List.mem_enum_iff_getElem?.mp hpr
      have hi : i < providers.length := by
        by_contra hcontra
        rw [List.getElem?_eq_none (by omega)] at hget
        exact absurd hget (by simp)
      have hpi : providers.get ⟨i, hi⟩ = p := by
        have h2 : providers[i]? = some (providers.get ⟨i, hi⟩) := by
          rw [List.getElem?_eq_getElem hi]
          rfl
        rw [h2] at hget
        exact (Option.some.injEq _ _).mp hget
      simp only [List.append_nil, List.mem_reverse]
      constructor
      · intro hmem
        obtain ⟨j, hj⟩ := Option.isSome_iff_exists.mp (hknown _ hmem)
        obtain ⟨hjlt, hjid⟩ := get_provider_eq_some hj
        have : j = i := hid_inj hjlt hi (by rw [hjid, hpi])
        subst this
        exact List.mem_filterMap.mpr ⟨p.id, hmem, hj⟩
      · intro hmem
        obtain ⟨x, hxmem, hx⟩ := List.mem_filterMap.mp hmem
        obtain ⟨hjlt, hjid⟩ := get_provider_eq_some hx
        rw [hpi] at hjid
        rw [hjid]
        exact hxmem
    have hfilter_eq : (providers.enum.filter fun pr => decide (pr.2.id ∉ processed.reverse ++ [])) =
        (providers.enum.filter fun pr => decide (pr.1 ∉ configIdxs)) := by
      apply List.filter_congr
      intro pr hpr
      simp only [decide_eq_decide]
      exact not_congr (hmem_iff pr hpr)
    have hfinal : registration_loop providers (processed.reverse ++ []) ([] ++ configIdxs) =
        configIdxs ++
          (providers.enum.filter fun pr => decide (pr.1 ∉ configIdxs)).map Prod.fst := by
      rw [registration_loop, List.nil_append, hreg, hfilter_eq]
    have hnodup_final : (configIdxs ++
        (providers.enum.filter fun pr => decide (pr.1 ∉ configIdxs)).map Prod.fst).Nodup := by
      refine List.Nodup.append ?_ ?_ ?_
      · refine List.Nodup.filterMap ?_ (dedupFrom_nodup [] (normalizeConfig cfg))
        intro a b j hja hjb
        rw [Option.mem_def] at hja hjb
        obtain ⟨hlt, hida⟩ := get_provider_eq_some hja
        obtain ⟨hlt2, hidb⟩ := get_provider_eq_some hjb
        rw [← hida, ← hidb]
      · have hsub : ((providers.enum.filter fun pr => decide (pr.1 ∉ configIdxs)).map Prod.fst).Sublist
            (providers.enum.map Prod.fst) := (List.filter_sublist _).map Prod.fst
        rw [List.enum_map_fst] at hsub
        exact (List.nodup_range _).sublist hsub
      · intro a ha hafil
        obtain ⟨pr, hprmem, hpr⟩ := List.mem_map.mp hafil
        have := List.of_mem_filter hprmem
        rw [decide_eq_true_iff] at this
        exact this (hpr ▸ ha)
    have hfinal_ne : (configIdxs ++
        (providers.enum.filter fun pr => decide (pr.1 ∉ configIdxs)).map Prod.fst) ≠ [] := by
      intro hcontra
      rw [List.append_eq_nil] at hcontra
      have hproc_nil : processed = [] := by
        rw [List.eq_nil_iff_forall_not_mem]
        intro x hx
        obtain ⟨j, hj⟩ := Option.isSome_iff_exists.mp (hknown x hx)
        have : j ∈ configIdxs := List.mem_filterMap.mpr ⟨x, hx, hj⟩
        rw [hcontra.1] at this
        exact absurd this (List.not_mem_nil j)
      have hfil : (providers.enum.filter fun pr => decide (pr.1 ∉ configIdxs)) = providers.enum := by
        apply List.filter_eq_self.mpr
        intro pr _
        rw [decide_eq_true_iff, hcontra.1]
        exact List.not_mem_nil _
      have := hcontra.2
      rw [hfil] at this
      have hrange : (providers.enum.map Prod.fst) = [] := this
      rw [List.enum_map_fst] at hrange
      have : providers.length = 0 := by
        by_contra hlen
        have : 0 ∈ List.range providers.length := List.mem_range.mpr (Nat.pos_of_ne_zero hlen)
        rw [hrange] at this
        exact absurd this (List.not_mem_nil 0)
      exact hne (List.length_eq_zero.mp this)
    constructor
    · rw [hresolve, hok]
      show (let final := registration_loop providers (processed.reverse ++ []) ([] ++ configIdxs)
            if final = [] then
              Except.error (Error.Config
                "no providers available -- use --list-providers to verify installation")
            else Except.ok final) = _
      rw [show (registration_loop providers (processed.reverse ++ []) ([] ++ configIdxs)) = _
        from hfinal]
      rw [if_neg hfinal_ne]
    · exact hnodup_final
  · intro hempty
    subst hempty
    by_cases hex : ∃ cid ∈ cfg, strTrim cid ≠ "" ∧
        get_provider ([] : List Provider) (strLower (strTrim cid)) = none
    · exact herrCase hex
    · push_neg at hex
      have hnorm_nil : normalizeConfig cfg = [] := by
        rw [List.eq_nil_iff_forall_not_mem]
        intro x hx
        obtain ⟨cid, hcid, hraw, rfl⟩ := mem_normalizeConfig.mp hx
        exact absurd rfl (hex cid hcid hraw)
      have hok := config_loop_ok ([] : List Provider) cfg [] [] (by rw [hnorm_nil]; simp [dedupFrom])
      rw [hnorm_nil] at hok
      refine ⟨"no providers available -- use --list-providers to verify installation", ?_⟩
      rw [hresolve, hok]
      show (let final := registration_loop [] ((dedupFrom [] []).reverse ++ [])
              ([] ++ (dedupFrom [] []).filterMap (get_provider []))
            if final = [] then
              Except.error (Error.Config
                "no providers available -- use --list-providers to verify installation")
            else Except.ok final) = _
      rw [show registration_loop [] ((dedupFrom [] []).reverse ++ [])
        ([] ++ (dedupFrom [] []).filterMap (get_provider [])) = [] from rfl]
      rfl

/-- C4: an explicit provider choice is trimmed and validated: empty after
trimming or matching no provider id exactly is a Configuration error,
otherwise the resolution is exactly the single-element list of that
provider's index; the configured order is never consulted. -/
theorem C4_resolver_explicit_choice (providers : List Provider) (e : String)
    (configured : Option (List String)) :
    (strTrim e = "" →
      resolve_provider_indices providers (some e) configured =
        .error (.Config "provider cannot be empty -- use --list-providers to see options")) ∧
    (strTrim e ≠ "" → get_provider providers (strTrim e) = none →
      resolve_provider_indices providers (some e) configured =
        .error (.Config ("unknown provider " ++ e ++
          " -- use --list-providers to see options"))) ∧
    (∀ idx, strTrim e ≠ "" → get_provider providers (strTrim e) = some idx →
      resolve_provider_indices providers (some e) configured = .ok [idx] ∧
      ∃ hlt : idx < providers.length, (providers.get ⟨idx, hlt⟩).id = strTrim e) ∧
    (∀ other, resolve_provider_indices providers (some e) configured =
      resolve_provider_indices providers (some e) other) := by
  have hunfold : ∀ (c : Option (List String)),
      resolve_provider_indices providers (some e) c =
        (if strTrim e = "" then
          .error (.Config "provider cannot be empty -- use --list-providers to see options")
        else
          match get_provider providers (strTrim e) with
          | none =>
            .error (.Config ("unknown provider " ++ e ++
              " -- use --list-providers to see options"))
          | some idx => .ok [idx]) := fun _ => rfl
  refine ⟨?_, ?_, ?_, ?_⟩
  · intro h
    rw [hunfold, if_pos h]
  · intro h hg
    rw [hunfold, if_neg h, hg]
  · intro idx h hg
    refine ⟨by rw [hunfold, if_neg h, hg], get_provider_eq_some hg⟩
  · intro other
    rw [hunfold, hunfold]

/-- A concrete provider list used by the resolver witnesses; the response
functions are irrelevant to resolution. -/
def sampleProviders : List Provider :=
  [⟨"coingecko", "CoinGecko", fun _ _ => .error .NoResults, fun _ _ => .error .NoResults⟩,
   ⟨"stooq", "Stooq", fun _ _ => .error .NoResults, fun _ _ => .error .NoResults⟩]

/-- Witness for C4: a typo fails fast, a trimmed exact id resolves to the
singleton index list. -/
theorem C4_resolver_explicit_choice_witness :
    resolve_provider_indices sampleProviders (some "stoq") none =
      .error (.Config "unknown provider stoq -- use --list-providers to see options") ∧
    resolve_provider_indices sampleProviders (some " stooq ") none = .ok [1] := by
  constructor
  · exact (C4_resolver_explicit_choice sampleProviders "stoq" none).2.1
      (by decide) (by decide)
  · exact ((C4_resolver_explicit_choice sampleProviders " stooq " none).2.2.1 1
      (by decide) (by decide)).1

/-- Witness for C3: configured order `["stooq"]` puts stooq first and the
remaining provider after it. -/
theorem C3_resolver_configured_order_witness :
    resolve_provider_indices sampleProviders none (some ["stooq"]) = .ok [1, 0] := by
  have h := (C3_resolver_configured_order sampleProviders (some ["stooq"])
      (by decide)).2.1 (by decide) (by simp [sampleProviders])
  refine h.1.trans (congrArg Except.ok ?_)
  decide

/-! ## Ticker search aggregation (src/main.rs) -/

structure TickerMatchKey where
  symbol : String
  name : String
  exchange : String
  asset_type : String
  deriving DecidableEq

/-- `ticker_match_key`: the identity key used for cross-provider
deduplication. -/
def ticker_match_key (candidate : TickerMatch) : TickerMatchKey :=
  ⟨trimUpper candidate.symbol, trimLower candidate.name,
   trimLower candidate.exchange, trimLower candidate.asset_type⟩

/-- `append_provider_name`: append a provider name to a comma-separated
field unless one of the trimmed components already equals it
ASCII-case-insensitively. -/
def append_provider_name (existing provider_name : String) : String :=
  if (splitOnComma existing.data).any
      (fun part => eqIgnoreAsciiCase (String.mk (trimChars part)) provider_name) then
    existing
  else if trimChars existing.data = [] then provider_name
  else existing ++ ", " ++ provider_name

/-- `is_ignorable_search_error`. -/
def is_ignorable_search_error : Error → Bool
  | .NoResults => true
  | .Config message => isSubstrOf "does not support ticker search".data (strLower message).data
  | _ => false

/-- `is_ignorable_price_error`. -/
def is_ignorable_price_error : Error → Bool
  | .NoResults => true
  | .Config message => isSubstrOf "requires --api-key".data (strLower message).data
  | _ => false

/-- The `by_key: HashMap<TickerMatchKey, usize>` of the search loop,
modelled as an association list: keys are inserted at most once, so
first-match lookup coincides with map lookup. -/
def by_key_get (by_key : List (TickerMatchKey × Nat)) (key : TickerMatchKey) : Option Nat :=
  (List.find? (fun entry => decide (entry.1 = key)) by_key).map (·.2)

structure SearchState where
  matchList : List TickerMatch
  by_key : List (TickerMatchKey × Nat)
  lastErr : Option Error

/-- The per-candidate body of `search_tickers_across_providers`: merge
into an existing match with the same identity key, drop a new match at
or beyond the limit, insert otherwise. -/
def process_candidate (limit : Nat) (st : SearchState) (candidate : TickerMatch) :
    SearchState :=
  let key := ticker_match_key candidate
  match by_key_get st.by_key key with
  | some existing_idx =>
    let existing := st.matchList.getD existing_idx default
    { st with
      matchList := st.matchList.set existing_idx
        { existing with
          provider := append_provider_name existing.provider candidate.provider } }
  | none =>
    if st.matchList.length ≥ limit then st
    else
      { st with
        by_key := (key, st.matchList.length) :: st.by_key,
        matchList := st.matchList ++ [candidate] }

/-- The provider loop of `search_tickers_across_providers`. -/
def search_loop (providers : List Provider) (query : String) (limit : Nat) :
    List Nat → SearchState → SearchState
  | [], st => st
  | i :: rest, st =>
    let prov := providers.getD i default
    match prov.searchTickers query limit with
    | .ok found =>
      search_loop providers query limit rest (found.foldl (process_candidate limit) st)
    | .error err =>
      if is_ignorable_search_error err then search_loop providers query limit rest st
      else search_loop providers query limit rest { st with lastErr := some err }

/-- `search_tickers_across_providers`. -/
def search_tickers_across_providers (providers : List Provider)
    (provider_indices : List Nat) (query : String) (limit : Nat) :
    Except Error (List TickerMatch) :=
  let st := search_loop providers query limit provider_indices ⟨[], [], none⟩
  if st.matchList = [] then
    match st.lastErr with
    | some err => .error err
    | none => .error .NoResults
  else .ok (st.matchList.take limit)

theorem splitOnComma_ne_nil (cs : List Char) : splitOnComma cs ≠ [] := by
  cases cs with
  | nil => simp [splitOnComma]
  | cons c rest =>
    rw [splitOnComma]
    by_cases hc : c = ','
    · rw [if_pos hc]; simp
    · rw [if_neg hc]
      cases h : splitOnComma rest <;> simp

theorem splitOnComma_append (xs ys : List Char) :
    splitOnComma (xs ++ ',' :: ys) = splitOnComma xs ++ splitOnComma ys := by
  induction xs with
  | nil => simp [splitOnComma]
  | cons c rest ih =>
    by_cases hc : c = ','
    · subst hc
      rw [List.cons_append, splitOnComma, if_pos rfl, ih]
      rw [show splitOnComma (',' :: rest) = [] :: splitOnComma rest from by
        rw [splitOnComma, if_pos rfl]]
      rfl
    · rw [List.cons_append, splitOnComma, if_neg hc, ih]
      rw [show splitOnComma (c :: rest) = match splitOnComma rest with
        | [] => [[c]]
        | g :: gs => (c :: g) :: gs from by rw [splitOnComma, if_neg hc]]
      cases h : splitOnComma rest with
      | nil => exact absurd h (splitOnComma_ne_nil rest)
      | cons g gs => simp

theorem splitOnComma_of_not_mem (cs : List Char) (h : ',' ∉ cs) :
    splitOnComma cs = [cs] := by
  induction cs with
  | nil => rfl
  | cons c rest ih =>
    have hc : c ≠ ',' := fun hcontra => h (hcontra ▸ List.mem_cons_self _ _)
    rw [splitOnComma, if_neg hc, ih (fun hcontra => h (List.mem_cons_of_mem _ hcontra))]

theorem trimChars_cons_space (l : List Char) : trimChars (' ' :: l) = trimChars l := by
  rw [trimChars, trimChars, List.dropWhile_cons_of_pos (by decide)]

/-- C6: in the cross-provider ticker search, two candidates with the same
identity key merge into a single `TickerMatch` that keeps the first-seen
candidate's field values with the second provider's name appended via
`append_provider_name`; appending a name already present among the
trimmed comma-separated components (ASCII-case-insensitively) leaves the
field unchanged, and for comma-free trimmed names the append is
idempotent. -/
theorem C6_ticker_dedup_merge :
    (∀ (m1 m2 : TickerMatch) (P1 P2 : Provider) (q : String) (limit : Nat),
      ticker_match_key m1 = ticker_match_key m2 →
      P1.searchTickers q limit = .ok [m1] →
      P2.searchTickers q limit = .ok [m2] →
      1 ≤ limit →
      search_tickers_across_providers [P1, P2] [0, 1] q limit =
        .ok [{ m1 with provider := append_provider_name m1.provider m2.provider }]) ∧
    (∀ existing name : String,
      (splitOnComma existing.data).any
        (fun part => eqIgnoreAsciiCase (String.mk (trimChars part)) name) = true →
      append_provider_name existing name = existing) ∧
    (∀ existing name : String, ',' ∉ name.data → trimChars name.data = name.data →
      append_provider_name (append_provider_name existing name) name =
        append_provider_name existing name) := by
  have happend_mem : ∀ existing name : String,
      (splitOnComma existing.data).any
        (fun part => eqIgnoreAsciiCase (String.mk (trimChars part)) name) = true →
      append_provider_name existing name = existing := by
    intro existing name h
    rw [append_provider_name, if_pos h]
  have hself : ∀ name : String, ',' ∉ name.data → trimChars name.data = name.data →
      (splitOnComma name.data).any
        (fun part => eqIgnoreAsciiCase (String.mk (trimChars part)) name) = true := by
    intro name hnc htr
    rw [splitOnComma_of_not_mem _ hnc, List.any_cons]
    have : eqIgnoreAsciiCase (String.mk (trimChars name.data)) name = true := by
      rw [htr, eqIgnoreAsciiCase]
      simp
    rw [this]
    rfl
  have hidem : ∀ existing name : String, ',' ∉ name.data → trimChars name.data = name.data →
      append_provider_name (append_provider_name existing name) name =
        append_provider_name existing name := by
    intro existing name hnc htr
    by_cases h1 : (splitOnComma existing.data).any
        (fun part => eqIgnoreAsciiCase (String.mk (trimChars part)) name) = true
    · rw [happend_mem existing name h1, happend_mem existing name h1]
    · by_cases h2 : trimChars existing.data = []
      · have hinner : append_provider_name existing name = name := by
          rw [append_provider_name, if_neg h1, if_pos h2]
        rw [hinner]
        exact happend_mem name name (hself name hnc htr)
      · have hinner : append_provider_name existing name = existing ++ ", " ++ name := by
          rw [append_provider_name, if_neg h1, if_neg h2]
        rw [hinner]
        apply happend_mem
        have hdata : (existing ++ ", " ++ name).data =
            existing.data ++ ',' :: (' ' :: name.data) := by
          rw [String.data_append, String.data_append,
            show (", " : String).data = [',', ' '] from rfl, List.append_assoc]
          rfl
        rw [hdata, splitOnComma_append, List.any_append]
        have hlast : (splitOnComma (' ' :: name.data)).any
            (fun part => eqIgnoreAsciiCase (String.mk (trimChars part)) name) = true := by
          have hnc2 : ',' ∉ (' ' :: name.data) := by
            intro hcontra
            rcases List.mem_cons.mp hcontra with hcontra | hcontra
            · exact absurd hcontra.symm (by decide)
            · exact hnc hcontra
          rw [splitOnComma_of_not_mem _ hnc2, List.any_cons]
          have : eqIgnoreAsciiCase (String.mk (trimChars (' ' :: name.data))) name = true := by
            rw [trimChars_cons_space, htr, eqIgnoreAsciiCase]
            simp
          rw [this]
          rfl
        rw [hlast]
        simp
  refine ⟨?_, happend_mem, hidem⟩
  intro m1 m2 P1 P2 q limit hkey h1 h2 hlim
  obtain ⟨n, rfl⟩ : ∃ n, limit = n + 1 := ⟨limit - 1, by omega⟩
  have hstep1 : search_loop [P1, P2] q (n + 1) [0, 1] ⟨[], [], none⟩ =
      search_loop [P1, P2] q (n + 1) [1]
        ([m1].foldl (process_candidate (n + 1)) ⟨[], [], none⟩) := by
    rw [search_loop]
    rw [show (List.getD [P1, P2] 0 default) = P1 from rfl, h1]
  have hproc1 : [m1].foldl (process_candidate (n + 1)) ⟨[], [], none⟩ =
      (⟨[m1], [(ticker_match_key m1, 0)], none⟩ : SearchState) := rfl
  have hstep2 : search_loop [P1, P2] q (n + 1) [1]
        (⟨[m1], [(ticker_match_key m1, 0)], none⟩ : SearchState) =
      [m2].foldl (process_candidate (n + 1)) ⟨[m1], [(ticker_match_key m1, 0)], none⟩ := by
    rw [search_loop]
    rw [show (List.getD [P1, P2] 1 default) = P2 from rfl, h2]
    rfl
  have hproc2 : [m2].foldl (process_candidate (n + 1))
        (⟨[m1], [(ticker_match_key m1, 0)], none⟩ : SearchState) =
      (⟨[{ m1 with provider := append_provider_name m1.provider m2.provider }],
        [(ticker_match_key m1, 0)], none⟩ : SearchState) := by
    have hfind : by_key_get [(ticker_match_key m1, 0)] (ticker_match_key m2) = some 0 := by
      rw [by_key_get, List.find?]
      rw [show decide ((ticker_match_key m1, 0).1 = ticker_match_key m2) = true from by
        simp [hkey]]
      rfl
    simp only [List.foldl_cons, List.foldl_nil, process_candidate, hfind]
    rfl
  rw [search_tickers_across_providers]
  rw [hstep1, hproc1, hstep2, hproc2]
  simp

theorem process_candidate_length_le (limit : Nat) (st : SearchState) (c : TickerMatch)
    (h : st.matchList.length ≤ limit) :
    (process_candidate limit st c).matchList.length ≤ limit := by
  cases hbk : by_key_get st.by_key (ticker_match_key c) with
  | some j =>
    simp only [process_candidate, hbk]
    simpa using h
  | none =>
    simp only [process_candidate, hbk]
    by_cases hge : st.matchList.length ≥ limit
    · rw [if_pos hge]; exact h
    · rw [if_neg hge]
      simp only [List.length_append, List.length_cons, List.length_nil]
      omega

theorem foldl_process_length_le (limit : Nat) (found : List TickerMatch) :
    ∀ st : SearchState, st.matchList.length ≤ limit →
      ((found.foldl (process_candidate limit) st).matchList.length ≤ limit) := by
  induction found with
  | nil => intro st h; exact h
  | cons c rest ih =>
    intro st h
    rw [List.foldl_cons]
    exact ih _ (process_candidate_length_le limit st c h)

theorem search_loop_cons_ok (providers : List Provider) (query : String) (limit : Nat)
    (i : Nat) (rest : List Nat) (st : SearchState) (found : List TickerMatch)
    (hres : (providers.getD i default).searchTickers query limit = .ok found) :
    search_loop providers query limit (i :: rest) st =
      search_loop providers query limit rest (found.foldl (process_candidate limit) st) := by
  rw [search_loop, hres]

theorem search_loop_cons_error (providers : List Provider) (query : String) (limit : Nat)
    (i : Nat) (rest : List Nat) (st : SearchState) (err : Error)
    (hres : (providers.getD i default).searchTickers query limit = .error err) :
    search_loop providers query limit (i :: rest) st =
      if is_ignorable_search_error err = true then search_loop providers query limit rest st
      else search_loop providers query limit rest { st with lastErr := some err } := by
  rw [search_loop, hres]

theorem search_loop_length_le (providers : List Provider) (query : String) (limit : Nat)
    (idxs : List Nat) :
    ∀ st : SearchState, st.matchList.length ≤ limit →
      (search_loop providers query limit idxs st).matchList.length ≤ limit := by
  induction idxs with
  | nil => intro st h; exact h
  | cons i rest ih =>
    intro st h
    cases hres : (providers.getD i default).searchTickers query limit with
    | ok found =>
      rw [search_loop_cons_ok providers query limit i rest st found hres]
      exact ih _ (foldl_process_length_le limit found st h)
    | error err =>
      rw [search_loop_cons_error providers query limit i rest st err hres]
      by_cases hig : is_ignorable_search_error err = true
      · rw [if_pos hig]; exact ih st h
      · rw [if_neg hig]; exact ih { st with lastErr := some err } h

/-- C8: the ticker search never returns more than `limit` matches; a new
unique match is inserted only while the accumulated count is strictly
below the limit (and dropped otherwise), while a duplicate match always
widens the existing entry's provider field without changing the count. -/
theorem C8_search_limit_cap :
    (∀ (providers : List Provider) (idxs : List Nat) (query : String) (limit : Nat)
        (ms : List TickerMatch),
      search_tickers_across_providers providers idxs query limit = .ok ms →
      ms.length ≤ limit) ∧
    (∀ (providers : List Provider) (idxs : List Nat) (query : String) (limit : Nat)
        (st : SearchState), st.matchList.length ≤ limit →
      (search_loop providers query limit idxs st).matchList.length ≤ limit) ∧
    (∀ (limit : Nat) (st : SearchState) (c : TickerMatch) (j : Nat),
      by_key_get st.by_key (ticker_match_key c) = some j →
      (process_candidate limit st c).matchList.length = st.matchList.length ∧
      process_candidate limit st c =
        { st with
          matchList := st.matchList.set j
            { st.matchList.getD j default with
              provider := append_provider_name
                (st.matchList.getD j default).provider c.provider } }) ∧
    (∀ (limit : Nat) (st : SearchState) (c : TickerMatch),
      by_key_get st.by_key (ticker_match_key c) = none →
      limit ≤ st.matchList.length →
      process_candidate limit st c = st) ∧
    (∀ (limit : Nat) (st : SearchState) (c : TickerMatch),
      by_key_get st.by_key (ticker_match_key c) = none →
      st.matchList.length < limit →
      process_candidate limit st c =
        { st with
          by_key := (ticker_match_key c, st.matchList.length) :: st.by_key,
          matchList := st.matchList ++ [c] }) := by
  refine ⟨?_, fun providers idxs query limit st h =>
      search_loop_length_le providers query limit idxs st h, ?_, ?_, ?_⟩
  · intro providers idxs query limit ms h
    simp only [search_tickers_across_providers] at h
    by_cases hnil : (search_loop providers query limit idxs ⟨[], [], none⟩).matchList = []
    · rw [if_pos hnil] at h
      cases hlast : (search_loop providers query limit idxs ⟨[], [], none⟩).lastErr with
      | some e => rw [hlast] at h; exact absurd h (by simp)
      | none => rw [hlast] at h; exact absurd h (by simp)
    · rw [if_neg hnil] at h
      have hms : (search_loop providers query limit idxs ⟨[], [], none⟩).matchList.take limit
          = ms := (Except.ok.injEq _ _).mp h
      rw [← hms, List.length_take]
      exact Nat.min_le_left _ _
  · intro limit st c j hbk
    constructor
    · simp only [process_candidate, hbk]
      simp
    · simp only [process_candidate, hbk]
  · intro limit st c hbk hge
    simp only [process_candidate, hbk]
    rw [if_pos (by omega)]
  · intro limit st c hbk hlt
    simp only [process_candidate, hbk]
    rw [if_neg (by omega)]

/-! ## Search fixtures for the witnesses -/

def sampleMatch : TickerMatch := ⟨"AAPL", "Apple Inc.", "NASDAQ", "Equity", "Yahoo Finance"⟩

/-- Same identity key as `sampleMatch` up to trimming and case. -/
def sampleMatch2 : TickerMatch := ⟨"aapl ", "APPLE INC.", "nasdaq", "equity", "Stooq"⟩

def searchProv1 : Provider :=
  ⟨"yahoo", "Yahoo Finance", fun _ _ => .error .NoResults, fun _ _ => .ok [sampleMatch]⟩

def searchProv2 : Provider :=
  ⟨"stooq", "Stooq", fun _ _ => .error .NoResults, fun _ _ => .ok [sampleMatch2]⟩

/-- Witness for C6 at concrete matches and providers. -/
theorem C6_ticker_dedup_merge_witness :
    search_tickers_across_providers [searchProv1, searchProv2] [0, 1] "apple" 5 =
      .ok [⟨"AAPL", "Apple Inc.", "NASDAQ", "Equity", "Yahoo Finance, Stooq"⟩] ∧
    append_provider_name "Yahoo Finance, Stooq" "stooq" = "Yahoo Finance, Stooq" ∧
    append_provider_name (append_provider_name "CoinGecko" "Stooq") "Stooq" =
      append_provider_name "CoinGecko" "Stooq" := by
  refine ⟨?_, ?_, ?_⟩
  · have h := C6_ticker_dedup_merge.1 sampleMatch sampleMatch2 searchProv1 searchProv2
      "apple" 5 (by decide) rfl rfl (by decide)
    exact h.trans (congrArg Except.ok (by decide))
  · exact C6_ticker_dedup_merge.2.1 "Yahoo Finance, Stooq" "stooq" (by decide)
  · exact C6_ticker_dedup_merge.2.2 "CoinGecko" "Stooq" (by decide) (by decide)

/-- Witness for C8 at concrete states: the loop bound, a duplicate not
increasing the count, and a unique match dropped at the limit. -/
theorem C8_search_limit_cap_witness :
    (search_loop [searchProv1, searchProv2] "apple" 1 [0, 1] ⟨[], [], none⟩).matchList.length ≤ 1 ∧
    process_candidate 1
      ⟨[sampleMatch], [(ticker_match_key sampleMatch, 0)], none⟩
      ⟨"MSFT", "Microsoft", "NASDAQ", "Equity", "Stooq"⟩ =
      ⟨[sampleMatch], [(ticker_match_key sampleMatch, 0)], none⟩ := by
  constructor
  · exact C8_search_limit_cap.2.1 [searchProv1, searchProv2] [0, 1] "apple" 1
      ⟨[], [], none⟩ (by decide)
  · exact C8_search_limit_cap.2.2.2.1 1
      ⟨[sampleMatch], [(ticker_match_key sampleMatch, 0)], none⟩
      ⟨"MSFT", "Microsoft", "NASDAQ", "Equity", "Stooq"⟩ (by decide) (by decide)

/-! ## Fallback price fetcher (src/main.rs, fetch_prices_with_provider_fallback)

The `found_by_symbol: HashMap<String, Vec<CoinPrice>>` grouping is
modelled as an association list built by `insertGroup` (entry order is
irrelevant: the map is only read back by key); `bucket.pop()` removes
the bucket's last element exactly as `Vec::pop` does.  Each step of the
provider loop is instrumented with a `FetchStep` recording the visited
index, the issued request and the response; the trace is derived
observability and does not alter the computation. -/

def insertGroup (groups : List (String × List CoinPrice)) (key : String)
    (price : CoinPrice) : List (String × List CoinPrice) :=
  match groups with
  | [] => [(key, [price])]
  | (k, bucket) :: rest =>
    if k = key then (k, bucket ++ [price]) :: rest
    else (k, bucket) :: insertGroup rest key price

def groupBySymbol (found : List CoinPrice) : List (String × List CoinPrice) :=
  found.foldl (fun gs p => insertGroup gs (trimUpper p.symbol) p) []

/-- `found_by_symbol.get_mut(&key).and_then(|bucket| bucket.pop())`. -/
def pop_group : List (String × List CoinPrice) → String →
    Option CoinPrice × List (String × List CoinPrice)
  | [], _ => (none, [])
  | (k, bucket) :: rest, key =>
    if k = key then
      match bucket.getLast? with
      | none => (none, (k, bucket) :: rest)
      | some price => (some price, (k, bucket.dropLast) :: rest)
    else
      let (r, rest2) := pop_group rest key
      (r, (k, bucket) :: rest2)

/-- The per-pending-entry consumption loop: match on the trimmed
uppercase symbol, pop one price for a resolved entry, keep the entry
pending otherwise. -/
def consume_pending (groups : List (String × List CoinPrice)) :
    List (Nat × String) → List (Option CoinPrice) →
    List (Nat × String) × List (Option CoinPrice)
  | [], resolved => ([], resolved)
  | (original_idx, symbol) :: rest, resolved =>
    match pop_group groups (trimUpper symbol) with
    | (some price, groups2) =>
      consume_pending groups2 rest (resolved.set original_idx (some price))
    | (none, groups2) =>
      let (np, res) := consume_pending groups2 rest resolved
      ((original_idx, symbol) :: np, res)

structure FetchStep where
  providerIdx : Nat
  request : List String
  response : Except Error (List CoinPrice)

structure FetchState where
  pending : List (Nat × String)
  resolved : List (Option CoinPrice)
  lastErr : Option Error

/-- One provider visit: request exactly the still-pending symbols, merge
an `Ok` response through `consume_pending`, remember a non-ignorable
error, skip an ignorable one. -/
def process_provider (providers : List Provider) (currency : String)
    (st : FetchState) (i : Nat) : FetchState × FetchStep :=
  let request := st.pending.map Prod.snd
  let prov := providers.getD i default
  match prov.getPrices request currency with
  | .ok found =>
    let groups := groupBySymbol found
    let (pending2, resolved2) := consume_pending groups st.pending st.resolved
    (⟨pending2, resolved2, st.lastErr⟩, ⟨i, request, .ok found⟩)
  | .error err =>
    (⟨st.pending, st.resolved,
      if is_ignorable_price_error err then st.lastErr else some err⟩,
     ⟨i, request, .error err⟩)

/-- The provider waterfall with early exit once nothing is pending. -/
def fallback_loop (providers : List Provider) (currency : String) :
    List Nat → FetchState → FetchState × List FetchStep
  | [], st => (st, [])
  | i :: rest, st =>
    if st.pending = [] then (st, [])
    else
      let pr := process_provider providers currency st i
      let rec2 := fallback_loop providers currency rest pr.1
      (rec2.1, pr.2 :: rec2.2)

def init_fetch_state (symbols : List String) : FetchState :=
  ⟨symbols.enum, List.replicate symbols.length none, none⟩

/-- `fetch_prices_with_provider_fallback`. -/
def fetch_prices_with_provider_fallback (providers : List Provider)
    (provider_indices : List Nat) (symbols : List String) (currency : String) :
    Except Error (List CoinPrice) :=
  let res := fallback_loop providers currency provider_indices (init_fetch_state symbols)
  let prices := res.1.resolved.filterMap id
  if prices = [] then
    match res.1.lastErr with
    | some err => .error err
    | none => .error .NoResults
  else .ok prices

/-- The entries of the original symbol list still unresolved in a slot
array, in original order: the independent characterization of the
pending set. -/
def unresolved_entries (symbols : List String) (resolved : List (Option CoinPrice)) :
    List (Nat × String) :=
  symbols.enum.filter fun e => decide (resolved.getD e.1 none = none)

/-- The last non-ignorable error along a trace, starting from `init`. -/
def last_hard_error (init : Option Error) (trace : List FetchStep) : Option Error :=
  trace.foldl
    (fun acc s =>
      match s.response with
      | .ok _ => acc
      | .error e => if is_ignorable_price_error e then acc else some e)
    init

/-- Well-formedness of a symbol-grouped response: every price sits in
the bucket of its own normalized symbol. -/
def GroupsWF (groups : List (String × List CoinPrice)) : Prop :=
  ∀ kb ∈ groups, ∀ p ∈ kb.2, trimUpper p.symbol = kb.1

theorem insertGroup_wf {groups : List (String × List CoinPrice)} {key : String}
    {price : CoinPrice} (hg : GroupsWF groups) (hp : trimUpper price.symbol = key) :
    GroupsWF (insertGroup groups key price) := by
  induction groups with
  | nil =>
    rintro kb hkb p hmem
    rw [insertGroup] at hkb
    rcases List.mem_cons.mp hkb with rfl | hkb
    · rcases List.mem_cons.mp hmem with rfl | hmem
      · exact hp
      · exact absurd hmem (List.not_mem_nil _)
    · exact absurd hkb (List.not_mem_nil _)
  | cons g rest ih =>
    obtain ⟨k, bucket⟩ := g
    rintro kb hkb p hmem
    rw [insertGroup] at hkb
    by_cases hk : k = key
    · rw [if_pos hk] at hkb
      rcases List.mem_cons.mp hkb with rfl | hkb
      · rcases List.mem_append.mp hmem with hmem | hmem
        · exact hg (k, bucket) (List.mem_cons_self _ _) p hmem
        · rw [List.mem_singleton] at hmem
          subst hmem
          rw [hp, hk]
      · exact hg kb (List.mem_cons_of_mem _ hkb) p hmem
    · rw [if_neg hk] at hkb
      rcases List.mem_cons.mp hkb with rfl | hkb
      · exact hg _ (List.mem_cons_self _ _) p hmem
      · exact ih (fun kb2 hkb2 => hg kb2 (List.mem_cons_of_mem _ hkb2)) kb hkb p hmem

theorem groupBySymbol_wf (found : List CoinPrice) : GroupsWF (groupBySymbol found) := by
  have hgen : ∀ (l : List CoinPrice) (gs : List (String × List CoinPrice)), GroupsWF gs →
      GroupsWF (l.foldl (fun acc p => insertGroup acc (trimUpper p.symbol) p) gs) := by
    intro l
    induction l with
    | nil => intro gs h; exact h
    | cons p rest ih =>
      intro gs h
      rw [List.foldl_cons]
      exact ih _ (insertGroup_wf h rfl)
  exact hgen found [] (by rintro kb hkb; exact absurd hkb (List.not_mem_nil _))

theorem pop_group_wf {groups : List (String × List CoinPrice)} (key : String)
    (hg : GroupsWF groups) :
    GroupsWF (pop_group groups key).2 ∧
      (∀ p, (pop_group groups key).1 = some p → trimUpper p.symbol = key) := by
  induction groups with
  | nil =>
    constructor
    · rintro kb hkb; exact absurd hkb (List.not_mem_nil _)
    · intro p hp; exact absurd hp (by simp [pop_group])
  | cons g rest ih =>
    obtain ⟨k, bucket⟩ := g
    have hg_rest : GroupsWF rest := fun kb hkb => hg kb (List.mem_cons_of_mem _ hkb)
    have hg_head : ∀ p ∈ bucket, trimUpper p.symbol = k :=
      fun p hp => hg (k, bucket) (List.mem_cons_self _ _) p hp
    by_cases hk : k = key
    · cases hlast : bucket.getLast? with
      | none =>
        have heq : pop_group ((k, bucket) :: rest) key = (none, (k, bucket) :: rest) := by
          rw [pop_group, if_pos hk, hlast]
        rw [heq]
        exact ⟨hg, fun p hp => absurd hp (by simp)⟩
      | some price =>
        have heq : pop_group ((k, bucket) :: rest) key =
            (some price, (k, bucket.dropLast) :: rest) := by
          rw [pop_group, if_pos hk, hlast]
        rw [heq]
        constructor
        · rintro kb hkb p hmem
          rcases List.mem_cons.mp hkb with rfl | hkb
          · exact hg_head p (List.dropLast_subset _ hmem)
          · exact hg_rest kb hkb p hmem
        · intro p hp
          have : price = p := by simpa using hp
          subst this
          rw [hg_head price (List.mem_of_getLast?_eq_some hlast), hk]
    · have heq : pop_group ((k, bucket) :: rest) key =
          ((pop_group rest key).1, (k, bucket) :: (pop_group rest key).2) := by
        rw [pop_group, if_neg hk]
      rw [heq]
      obtain ⟨ihwf, ihkey⟩ := ih hg_rest
      constructor
      · rintro kb hkb p hmem
        rcases List.mem_cons.mp hkb with rfl | hkb
        · exact hg_head p hmem
        · exact ihwf kb hkb p hmem
      · exact ihkey

theorem getD_set_ne {α : Type} (l : List α) (i j : Nat) (v d : α) (h : j ≠ i) :
    (l.set j v).getD i d = l.getD i d := by
  rw [List.getD_eq_getElem?_getD, List.getD_eq_getElem?_getD, List.getElem?_set_ne h]

theorem getD_set_self {α : Type} (l : List α) (i : Nat) (v d : α) (h : i < l.length) :
    (l.set i v).getD i d = v := by
  rw [List.getD_eq_getElem?_getD, List.getElem?_set_self h]
  rfl

theorem consume_pending_cons_some {groups groups2 : List (String × List CoinPrice)}
    {idx : Nat} {sym : String} {rest : List (Nat × String)}
    {resolved : List (Option CoinPrice)} {price : CoinPrice}
    (hpop : pop_group groups (trimUpper sym) = (some price, groups2)) :
    consume_pending groups ((idx, sym) :: rest) resolved =
      consume_pending groups2 rest (resolved.set idx (some price)) := by
  rw [consume_pending, hpop]

theorem consume_pending_cons_none {groups groups2 : List (String × List CoinPrice)}
    {idx : Nat} {sym : String} {rest : List (Nat × String)}
    {resolved : List (Option CoinPrice)}
    (hpop : pop_group groups (trimUpper sym) = (none, groups2)) :
    consume_pending groups ((idx, sym) :: rest) resolved =
      ((idx, sym) :: (consume_pending groups2 rest resolved).1,
       (consume_pending groups2 rest resolved).2) := by
  rw [consume_pending, hpop]

/-- The behaviour of one consumption pass: the resolved array keeps its
length, the surviving pending entries form a sublist of the old ones,
slots outside the pending set are untouched, and every pending entry
either stays pending with its slot still empty or leaves the pending
set with its slot holding a price whose trimmed uppercase symbol matches
its own. -/
theorem consume_pending_spec :
    ∀ (l : List (Nat × String)) (groups : List (String × List CoinPrice))
      (resolved : List (Option CoinPrice)),
      GroupsWF groups →
      (∀ e ∈ l, e.1 < resolved.length) →
      (l.map Prod.fst).Nodup →
      (∀ e ∈ l, resolved.getD e.1 none = none) →
      (consume_pending groups l resolved).2.length = resolved.length ∧
      (consume_pending groups l resolved).1.Sublist l ∧
      (∀ i, i ∉ l.map Prod.fst →
        (consume_pending groups l resolved).2.getD i none = resolved.getD i none) ∧
      (∀ e ∈ l,
        (e ∈ (consume_pending groups l resolved).1 →
          (consume_pending groups l resolved).2.getD e.1 none = none) ∧
        (e ∉ (consume_pending groups l resolved).1 →
          ∃ p, (consume_pending groups l resolved).2.getD e.1 none = some p ∧
            trimUpper p.symbol = trimUpper e.2)) := by
  intro l
  induction l with
  | nil =>
    intro groups resolved _ _ _ _
    refine ⟨rfl, List.Sublist.refl _, fun i _ => rfl, fun e he => absurd he (List.not_mem_nil e)⟩
  | cons hd rest ih =>
    obtain ⟨idx, sym⟩ := hd
    intro groups resolved hg hlt hnodup hunres
    have hidx_not_rest : idx ∉ rest.map Prod.fst := by
      have := hnodup
      rw [List.map_cons, List.nodup_cons] at this
      exact this.1
    have hnodup_rest : (rest.map Prod.fst).Nodup := by
      have := hnodup
      rw [List.map_cons, List.nodup_cons] at this
      exact this.2
    rcases hpop : pop_group groups (trimUpper sym) with ⟨r0, groups2⟩
    have hg2 : GroupsWF groups2 := by
      have := (pop_group_wf (trimUpper sym) hg).1
      rw [hpop] at this
      exact this
    cases r0 with
    | some price =>
      have hkeyp : trimUpper price.symbol = trimUpper sym := by
        have := (pop_group_wf (trimUpper sym) hg).2
        rw [hpop] at this
        exact this price rfl
      rw [consume_pending_cons_some hpop]
      have hidx_lt : idx < resolved.length := hlt (idx, sym) (List.mem_cons_self _ _)
      obtain ⟨iha, ihb, ihc, ihd⟩ := ih groups2 (resolved.set idx (some price)) hg2
        (fun e he => by rw [List.length_set]; exact hlt e (List.mem_cons_of_mem _ he))
        hnodup_rest
        (fun e he => by
          rw [getD_set_ne _ _ _ _ _ (fun hcontra => hidx_not_rest
            (by rw [hcontra]; exact List.mem_map_of_mem Prod.fst he))]
          exact hunres e (List.mem_cons_of_mem _ he))
      refine ⟨by rw [iha, List.length_set], ihb.trans (List.sublist_cons_self _ _), ?_, ?_⟩
      · intro i hi
        have hi_rest : i ∉ rest.map Prod.fst := by
          intro hc; exact hi (by rw [List.map_cons]; exact List.mem_cons_of_mem _ hc)
        have hi_ne : i ≠ idx := by
          intro hc; exact hi (by rw [List.map_cons, hc]; exact List.mem_cons_self _ _)
        rw [ihc i hi_rest, getD_set_ne _ _ _ _ _ (fun hc => hi_ne hc.symm)]
      · rintro e he
        rcases List.mem_cons.mp he with rfl | he2
        · constructor
          · intro hmem
            have : (idx, sym) ∈ rest := ihb.subset hmem
            exact absurd (List.mem_map_of_mem Prod.fst this) hidx_not_rest
          · intro _
            refine ⟨price, ?_, hkeyp⟩
            rw [ihc idx hidx_not_rest, getD_set_self _ _ _ _ hidx_lt]
        · exact ihd e he2
    | none =>
      rw [consume_pending_cons_none hpop]
      obtain ⟨iha, ihb, ihc, ihd⟩ := ih groups2 resolved hg2
        (fun e he => hlt e (List.mem_cons_of_mem _ he))
        hnodup_rest
        (fun e he => hunres e (List.mem_cons_of_mem _ he))
      refine ⟨iha, List.Sublist.cons₂ _ ihb, ?_, ?_⟩
      · intro i hi
        exact ihc i (fun hc => hi (by rw [List.map_cons]; exact List.mem_cons_of_mem _ hc))
      · rintro e he
        rcases List.mem_cons.mp he with rfl | he2
        · constructor
          · intro _
            rw [ihc _ hidx_not_rest]
            exact hunres (idx, sym) (List.mem_cons_self _ _)
          · intro hmem
            exact absurd (List.mem_cons_self _ _) hmem
        · constructor
          · intro hmem
            rcases List.mem_cons.mp hmem with heq | hmem2
            · exfalso
              have : e.1 ∈ rest.map Prod.fst := List.mem_map_of_mem Prod.fst he2
              rw [heq] at this
              exact hidx_not_rest this
            · exact (ihd e he2).1 hmem2
          · intro hmem
            exact (ihd e he2).2 (fun hc => hmem (List.mem_cons_of_mem _ hc))

theorem filter_eq_of_sublist {α : Type} (L : List α) :
    ∀ (l2 : List α) (P : α → Bool), l2.Sublist L → L.Nodup →
      (∀ e ∈ L, (P e = true ↔ e ∈ l2)) → L.filter P = l2 := by
  induction L with
  | nil =>
    intro l2 P hsub _ _
    rw [List.sublist_nil.mp hsub]
    rfl
  | cons a L2 ihL =>
    intro l2 P hsub hnd hiff
    rw [List.nodup_cons] at hnd
    by_cases hmem : a ∈ l2
    · cases hsub with
      | cons _ htail => exact absurd (htail.subset hmem) hnd.1
      | cons₂ _ htail =>
        rw [List.filter_cons,
          if_pos ((hiff a (List.mem_cons_self _ _)).mpr (List.mem_cons_self _ _))]
        congr 1
        refine ihL _ P htail hnd.2 ?_
        intro e he
        rw [hiff e (List.mem_cons_of_mem _ he)]
        constructor
        · intro hin
          rcases List.mem_cons.mp hin with rfl | hin
          · exact absurd he hnd.1
          · exact hin
        · exact List.mem_cons_of_mem _
    · cases hsub with
      | cons _ htail =>
        rw [List.filter_cons, if_neg (by
          rw [hiff a (List.mem_cons_self _ _)]
          simpa using hmem)]
        exact ihL l2 P htail hnd.2 (fun e he => hiff e (List.mem_cons_of_mem _ he))
      | cons₂ _ htail => exact absurd (List.mem_cons_self _ _) hmem

theorem enum_nodup {α : Type} (l : List α) : l.enum.Nodup := by
  refine List.Nodup.of_map Prod.fst ?_
  rw [List.enum_map_fst]
  exact List.nodup_range _

theorem enum_mem_getD {α : Type} [Inhabited α] {l : List α} {e : Nat × α}
    (h : e ∈ l.enum) : l.getD e.1 default = e.2 ∧ e.1 < l.length := by
  have hget : l[e.1]? = some e.2 := List.mem_enum_iff_getElem?.mp h
  have hlt : e.1 < l.length := by
    by_contra hcontra
    rw [List.getElem?_eq_none (by omega)] at hget
    exact absurd hget (by simp)
  constructor
  · rw [List.getD_eq_getElem?_getD, hget]
    rfl
  · exact hlt

theorem enum_fst_unique {α : Type} {l : List α} {i : Nat} {x y : α}
    (hx : (i, x) ∈ l.enum) (hy : (i, y) ∈ l.enum) : x = y := by
  have h1 := List.mem_enum_iff_getElem?.mp hx
  have h2 := List.mem_enum_iff_getElem?.mp hy
  rw [h1] at h2
  exact (Option.some.injEq _ _).mp h2

/-- The loop invariant of the fallback fetcher: the slot array has one
slot per input symbol, the pending list is exactly the unresolved
entries in original order, and every filled slot matches its symbol on
the trimmed uppercase form. -/
def StateInv (symbols : List String) (st : FetchState) : Prop :=
  st.resolved.length = symbols.length ∧
  st.pending = unresolved_entries symbols st.resolved ∧
  ∀ i p, st.resolved.getD i none = some p →
    trimUpper p.symbol = trimUpper (symbols.getD i "")

theorem getD_replicate_none (n i : Nat) :
    (List.replicate n (none : Option CoinPrice)).getD i none = none := by
  rw [List.getD_eq_getElem?_getD, List.getElem?_replicate]
  by_cases h : i < n
  · rw [if_pos h]; rfl
  · rw [if_neg h]; rfl

theorem init_fetch_state_inv (symbols : List String) :
    StateInv symbols (init_fetch_state symbols) := by
  refine ⟨List.length_replicate _ _, ?_, ?_⟩
  · rw [init_fetch_state, unresolved_entries]
    symm
    apply List.filter_eq_self.mpr
    intro e _
    rw [getD_replicate_none]
    simp
  · intro i p hp
    rw [show (init_fetch_state symbols).resolved = List.replicate symbols.length none
      from rfl, getD_replicate_none] at hp
    exact absurd hp (by simp)

theorem process_provider_ok {providers : List Provider} {currency : String}
    {st : FetchState} {i : Nat} {found : List CoinPrice}
    (hres : (providers.getD i default).getPrices (st.pending.map Prod.snd) currency =
      .ok found) :
    process_provider providers currency st i =
      (⟨(consume_pending (groupBySymbol found) st.pending st.resolved).1,
        (consume_pending (groupBySymbol found) st.pending st.resolved).2,
        st.lastErr⟩,
       ⟨i, st.pending.map Prod.snd, .ok found⟩) := by
  rw [process_provider, hres]

theorem process_provider_error {providers : List Provider} {currency : String}
    {st : FetchState} {i : Nat} {err : Error}
    (hres : (providers.getD i default).getPrices (st.pending.map Prod.snd) currency =
      .error err) :
    process_provider providers currency st i =
      (⟨st.pending, st.resolved,
        if is_ignorable_price_error err then st.lastErr else some err⟩,
       ⟨i, st.pending.map Prod.snd, .error err⟩) := by
  rw [process_provider, hres]

theorem process_provider_inv {symbols : List String} (providers : List Provider)
    (currency : String) (st : FetchState) (i : Nat) (hinv : StateInv symbols st) :
    StateInv symbols (process_provider providers currency st i).1 ∧
    (process_provider providers currency st i).2.request = st.pending.map Prod.snd ∧
    (process_provider providers currency st i).2.providerIdx = i ∧
    (process_provider providers currency st i).1.lastErr =
      (match (process_provider providers currency st i).2.response with
       | .ok _ => st.lastErr
       | .error e => if is_ignorable_price_error e then st.lastErr else some e) := by
  obtain ⟨hlen, hpend, hkey⟩ := hinv
  cases hres : (providers.getD i default).getPrices (st.pending.map Prod.snd) currency with
  | error err =>
    rw [process_provider_error hres]
    exact ⟨⟨hlen, hpend, hkey⟩, rfl, rfl, rfl⟩
  | ok found =>
    rw [process_provider_ok hres]
    have hg := groupBySymbol_wf found
    have hfacts : ∀ e ∈ st.pending, symbols.getD e.1 "" = e.2 ∧ e.1 < symbols.length ∧
        st.resolved.getD e.1 none = none := by
      intro e he
      rw [hpend, unresolved_entries] at he
      have hmem := List.mem_of_mem_filter he
      have hcond := List.of_mem_filter he
      obtain ⟨hgd, hlt2⟩ := enum_mem_getD hmem
      exact ⟨hgd, hlt2, by simpa using hcond⟩
    have hps : st.pending.Sublist symbols.enum := by
      rw [hpend, unresolved_entries]
      exact List.filter_sublist _
    have hlt : ∀ e ∈ st.pending, e.1 < st.resolved.length := fun e he =>
      hlen ▸ (hfacts e he).2.1
    have hnodup : (st.pending.map Prod.fst).Nodup := by
      refine List.Nodup.sublist (List.Sublist.map Prod.fst hps) ?_
      rw [List.enum_map_fst]
      exact List.nodup_range _
    have hunres : ∀ e ∈ st.pending, st.resolved.getD e.1 none = none := fun e he =>
      (hfacts e he).2.2
    obtain ⟨hclen, hcsub, hcoff, hcmem⟩ :=
      consume_pending_spec st.pending (groupBySymbol found) st.resolved hg hlt hnodup hunres
    set c := consume_pending (groupBySymbol found) st.pending st.resolved with hc
    have hnot_pend_fst : ∀ e ∈ symbols.enum, e ∉ st.pending →
        e.1 ∉ st.pending.map Prod.fst := by
      rintro ⟨i1, x⟩ he hne hcontra
      obtain ⟨e2, he2, heq⟩ := List.mem_map.mp hcontra
      obtain ⟨i2, y⟩ := e2
      simp only at heq
      subst heq
      have he2enum := hps.subset he2
      have : x = y := enum_fst_unique he he2enum
      subst this
      exact hne he2
    refine ⟨⟨?_, ?_, ?_⟩, rfl, rfl, rfl⟩
    · rw [hclen]
      exact hlen
    · show c.1 = unresolved_entries symbols c.2
      rw [unresolved_entries]
      refine (filter_eq_of_sublist symbols.enum c.1 _ (hcsub.trans hps)
        (enum_nodup symbols) ?_).symm
      intro e he
      by_cases hep : e ∈ st.pending
      · constructor
        · intro hcond
          rw [decide_eq_true_iff] at hcond
          by_contra hne
          obtain ⟨p, hp, -⟩ := (hcmem e hep).2 hne
          rw [hp] at hcond
          exact absurd hcond (by simp)
        · intro hmem
          rw [decide_eq_true_iff]
          exact (hcmem e hep).1 hmem
      · have hfst := hnot_pend_fst e he hep
        constructor
        · intro hcond
          rw [decide_eq_true_iff, hcoff e.1 hfst] at hcond
          exfalso
          apply hep
          rw [hpend, unresolved_entries]
          exact List.mem_filter.mpr ⟨he, by simpa using hcond⟩
        · intro hmem
          exact absurd (hcsub.subset hmem) hep
    · intro i2 p hp
      by_cases hifst : i2 ∈ st.pending.map Prod.fst
      · obtain ⟨e, hemem, heq⟩ := List.mem_map.mp hifst
        subst heq
        by_cases hel : e ∈ c.1
        · rw [(hcmem e hemem).1 hel] at hp
          exact absurd hp (by simp)
        · obtain ⟨p2, hp2, hkey2⟩ := (hcmem e hemem).2 hel
          rw [hp2] at hp
          obtain rfl : p2 = p := (Option.some.injEq _ _).mp hp
          rw [hkey2, (hfacts e hemem).1]
      · rw [hcoff i2 hifst] at hp
        exact hkey i2 p hp

theorem process_provider_step (providers : List Provider) (currency : String)
    (st : FetchState) (i : Nat) :
    (process_provider providers currency st i).2.providerIdx = i ∧
    (process_provider providers currency st i).2.request = st.pending.map Prod.snd := by
  cases hres : (providers.getD i default).getPrices (st.pending.map Prod.snd) currency with
  | ok found => rw [process_provider_ok hres]; exact ⟨rfl, rfl⟩
  | error err => rw [process_provider_error hres]; exact ⟨rfl, rfl⟩

theorem process_provider_lastErr (providers : List Provider) (currency : String)
    (st : FetchState) (i : Nat) :
    (process_provider providers currency st i).1.lastErr =
      (match (process_provider providers currency st i).2.response with
       | .ok _ => st.lastErr
       | .error e => if is_ignorable_price_error e then st.lastErr else some e) := by
  cases hres : (providers.getD i default).getPrices (st.pending.map Prod.snd) currency with
  | ok found => rw [process_provider_ok hres]
  | error err => rw [process_provider_error hres]

theorem fallback_loop_nil_pending (providers : List Provider) (currency : String)
    (idxs : List Nat) (st : FetchState) (h : st.pending = []) :
    fallback_loop providers currency idxs st = (st, []) := by
  cases idxs with
  | nil => rfl
  | cons i rest => rw [fallback_loop, if_pos h]

theorem fallback_loop_cons (providers : List Provider) (currency : String)
    (i : Nat) (rest : List Nat) (st : FetchState) (h : st.pending ≠ []) :
    fallback_loop providers currency (i :: rest) st =
      ((fallback_loop providers currency rest (process_provider providers currency st i).1).1,
       (process_provider providers currency st i).2 ::
        (fallback_loop providers currency rest (process_provider providers currency st i).1).2) := by
  rw [fallback_loop, if_neg h]

theorem fallback_loop_inv {symbols : List String} (providers : List Provider)
    (currency : String) (idxs : List Nat) :
    ∀ st : FetchState, StateInv symbols st →
      StateInv symbols (fallback_loop providers currency idxs st).1 := by
  induction idxs with
  | nil => intro st h; exact h
  | cons i rest ih =>
    intro st h
    by_cases hp : st.pending = []
    · rw [fallback_loop_nil_pending _ _ _ _ hp]; exact h
    · rw [fallback_loop_cons _ _ _ _ _ hp]
      exact ih _ (process_provider_inv providers currency st i h).1

theorem fallback_loop_trace (providers : List Provider) (currency : String)
    (idxs : List Nat) :
    ∀ st : FetchState,
      ((fallback_loop providers currency idxs st).2.map FetchStep.providerIdx =
        idxs.take (fallback_loop providers currency idxs st).2.length) ∧
      ((fallback_loop providers currency idxs st).2.length = idxs.length ∨
        (fallback_loop providers currency idxs st).1.pending = []) ∧
      (∀ s ∈ (fallback_loop providers currency idxs st).2, s.request ≠ []) := by
  induction idxs with
  | nil =>
    intro st
    exact ⟨rfl, Or.inl rfl, fun s hs => absurd hs (List.not_mem_nil s)⟩
  | cons i rest ih =>
    intro st
    by_cases hp : st.pending = []
    · rw [fallback_loop_nil_pending _ _ _ _ hp]
      exact ⟨rfl, Or.inr hp, fun s hs => absurd hs (List.not_mem_nil s)⟩
    · rw [fallback_loop_cons _ _ _ _ _ hp]
      obtain ⟨iha, ihb, ihc⟩ := ih (process_provider providers currency st i).1
      refine ⟨?_, ?_, ?_⟩
      · simp only [List.map_cons, List.length_cons, List.take_succ_cons]
        rw [iha, (process_provider_step providers currency st i).1]
      · rcases ihb with hb | hb
        · exact Or.inl (by simp [hb])
        · exact Or.inr hb
      · intro s hs
        rcases List.mem_cons.mp hs with rfl | hs2
        · rw [(process_provider_step providers currency st i).2]
          intro hcontra
          exact hp (List.map_eq_nil_iff.mp hcontra)
        · exact ihc s hs2

theorem fallback_loop_request_at (providers : List Provider) (currency : String)
    (idxs : List Nat) :
    ∀ (st : FetchState) (k : Nat), k < (fallback_loop providers currency idxs st).2.length →
      ((fallback_loop providers currency idxs st).2.get? k).map FetchStep.request =
        some ((fallback_loop providers currency (idxs.take k) st).1.pending.map Prod.snd) := by
  induction idxs with
  | nil =>
    intro st k hk
    exact absurd hk (by simp [fallback_loop])
  | cons i rest ih =>
    intro st k hk
    by_cases hp : st.pending = []
    · rw [fallback_loop_nil_pending _ _ _ _ hp] at hk
      exact absurd hk (by simp)
    · rw [fallback_loop_cons _ _ _ _ _ hp] at hk ⊢
      cases k with
      | zero =>
        simp only [List.take_zero]
        rw [show fallback_loop providers currency [] st = (st, []) from rfl]
        simp only [List.get?]
        rw [show Option.map FetchStep.request (some (process_provider providers currency st i).2)
          = some (process_provider providers currency st i).2.request from rfl]
        rw [(process_provider_step providers currency st i).2]
      | succ k2 =>
        rw [List.take_succ_cons, fallback_loop_cons _ _ _ _ _ hp]
        simp only [List.get?]
        exact ih (process_provider providers currency st i).1 k2 (by simpa using hk)

theorem fallback_loop_lastErr (providers : List Provider) (currency : String)
    (idxs : List Nat) :
    ∀ st : FetchState, (fallback_loop providers currency idxs st).1.lastErr =
      last_hard_error st.lastErr (fallback_loop providers currency idxs st).2 := by
  induction idxs with
  | nil => intro st; rfl
  | cons i rest ih =>
    intro st
    by_cases hp : st.pending = []
    · rw [fallback_loop_nil_pending _ _ _ _ hp]
      rfl
    · rw [fallback_loop_cons _ _ _ _ _ hp]
      rw [last_hard_error, List.foldl_cons]
      rw [show ((match (process_provider providers currency st i).2.response with
          | .ok _ => st.lastErr
          | .error e => if is_ignorable_price_error e then st.lastErr else some e)) =
        (process_provider providers currency st i).1.lastErr from
          (process_provider_lastErr providers currency st i).symm]
      exact ih (process_provider providers currency st i).1

theorem last_hard_error_not_ignorable (tr : List FetchStep) :
    ∀ (init : Option Error) (e : Error),
      (∀ e0, init = some e0 → is_ignorable_price_error e0 = false) →
      last_hard_error init tr = some e → is_ignorable_price_error e = false := by
  induction tr with
  | nil => intro init e hinit h; exact hinit e h
  | cons s rest ih =>
    intro init e hinit h
    rw [last_hard_error, List.foldl_cons] at h
    refine ih _ e ?_ h
    intro e0 he0
    cases hres : s.response with
    | ok found => simp only [hres] at he0; exact hinit e0 he0
    | error err =>
      simp only [hres] at he0
      by_cases hig : is_ignorable_price_error err = true
      · rw [if_pos hig] at he0; exact hinit e0 he0
      · rw [if_neg hig] at he0
        obtain rfl : err = e0 := (Option.some.injEq _ _).mp he0
        simpa using hig

/-- C1: the fallback fetcher visits providers strictly in the resolved
order (the visited indices are a prefix of it), stops early exactly when
no symbol is pending (a shorter trace forces an empty pending set, and
no request is ever issued with an empty pending set), sends each visited
provider exactly the still-unresolved entries in their original relative
order (the pending set before step `k` is precisely
`unresolved_entries`, a sublist of the input symbols), fills each slot
only with a price whose trimmed uppercase symbol matches that slot's
symbol (one price per pending entry, since a slot holds at most one
price), and returns on success the resolved slots in original
symbol-input order with unresolved slots absent (`filterMap id` over the
position-indexed slot array). -/
theorem C1_fallback_visit_order (providers : List Provider) (idxs : List Nat)
    (symbols : List String) (currency : String) :
    let res := fallback_loop providers currency idxs (init_fetch_state symbols)
    (res.2.map FetchStep.providerIdx = idxs.take res.2.length) ∧
    (res.2.length = idxs.length ∨ res.1.pending = []) ∧
    (∀ s ∈ res.2, s.request ≠ []) ∧
    (∀ k, k < res.2.length →
      (res.2.get? k).map FetchStep.request =
        some ((fallback_loop providers currency (idxs.take k)
          (init_fetch_state symbols)).1.pending.map Prod.snd)) ∧
    (∀ k, (fallback_loop providers currency (idxs.take k)
        (init_fetch_state symbols)).1.pending =
      unresolved_entries symbols
        (fallback_loop providers currency (idxs.take k) (init_fetch_state symbols)).1.resolved) ∧
    (∀ k, ((fallback_loop providers currency (idxs.take k)
        (init_fetch_state symbols)).1.pending.map Prod.snd).Sublist symbols) ∧
    (∀ i p, res.1.resolved.getD i none = some p →
      trimUpper p.symbol = trimUpper (symbols.getD i "")) ∧
    (∀ ps, fetch_prices_with_provider_fallback providers idxs symbols currency = .ok ps →
      ps = res.1.resolved.filterMap id) := by
  intro res
  obtain ⟨ha, hb, hc⟩ := fallback_loop_trace providers currency idxs (init_fetch_state symbols)
  refine ⟨ha, hb, hc, ?_, ?_, ?_, ?_, ?_⟩
  · exact fun k hk => fallback_loop_request_at providers currency idxs _ k hk
  · intro k
    exact (fallback_loop_inv providers currency (idxs.take k) _
      (init_fetch_state_inv symbols)).2.1
  · intro k
    have hinv := fallback_loop_inv providers currency (idxs.take k) _
      (init_fetch_state_inv symbols)
    rw [hinv.2.1, unresolved_entries]
    have hsub : ((symbols.enum.filter fun e =>
        decide ((fallback_loop providers currency (idxs.take k)
          (init_fetch_state symbols)).1.resolved.getD e.1 none = none)).map Prod.snd).Sublist
        (symbols.enum.map Prod.snd) :=
      List.Sublist.map Prod.snd (List.filter_sublist _)
    rwa [List.enum_map_snd] at hsub
  · intro i p hp
    exact (fallback_loop_inv providers currency idxs _
      (init_fetch_state_inv symbols)).2.2 i p hp
  · intro ps hps
    by_cases hnil : res.1.resolved.filterMap id = []
    · rw [show fetch_prices_with_provider_fallback providers idxs symbols currency =
          (if res.1.resolved.filterMap id = [] then
            (match res.1.lastErr with
             | some err => .error err
             | none => .error .NoResults)
          else .ok (res.1.resolved.filterMap id)) from rfl, if_pos hnil] at hps
      cases hle : res.1.lastErr with
      | some err => rw [hle] at hps; exact absurd hps (by simp)
      | none => rw [hle] at hps; exact absurd hps (by simp)
    · rw [show fetch_prices_with_provider_fallback providers idxs symbols currency =
          (if res.1.resolved.filterMap id = [] then
            (match res.1.lastErr with
             | some err => .error err
             | none => .error .NoResults)
          else .ok (res.1.resolved.filterMap id)) from rfl, if_neg hnil] at hps
      exact ((Except.ok.injEq _ _).mp hps).symm

/-- C2: the fallback fetch succeeds exactly when at least one slot
resolved (partial results are success even after hard provider
failures), and on failure it surfaces the last non-ignorable provider
error of the run when one occurred — never an ignorable one — and
`NoResults` otherwise. -/
theorem C2_fallback_error_surfacing (providers : List Provider) (idxs : List Nat)
    (symbols : List String) (currency : String) :
    let res := fallback_loop providers currency idxs (init_fetch_state symbols)
    (fetch_prices_with_provider_fallback providers idxs symbols currency =
        .ok (res.1.resolved.filterMap id) ↔ res.1.resolved.filterMap id ≠ []) ∧
    (∀ e, fetch_prices_with_provider_fallback providers idxs symbols currency = .error e →
      res.1.resolved.filterMap id = [] ∧
      ((last_hard_error none res.2 = some e ∧ is_ignorable_price_error e = false) ∨
       (last_hard_error none res.2 = none ∧ e = .NoResults))) := by
  intro res
  have hunfold : fetch_prices_with_provider_fallback providers idxs symbols currency =
      (if res.1.resolved.filterMap id = [] then
        (match res.1.lastErr with
         | some err => .error err
         | none => .error .NoResults)
      else .ok (res.1.resolved.filterMap id)) := rfl
  have hlasteq : res.1.lastErr = last_hard_error none res.2 :=
    fallback_loop_lastErr providers currency idxs (init_fetch_state symbols)
  constructor
  · constructor
    · intro h hnil
      rw [hunfold, if_pos hnil] at h
      cases hle : res.1.lastErr with
      | some err => rw [hle] at h; exact absurd h (by simp)
      | none => rw [hle] at h; exact absurd h (by simp)
    · intro hne
      rw [hunfold, if_neg hne]
  · intro e he
    rw [hunfold] at he
    by_cases hnil : res.1.resolved.filterMap id = []
    · rw [if_pos hnil] at he
      refine ⟨hnil, ?_⟩
      cases hle : res.1.lastErr with
      | some err =>
        rw [hle] at he
        obtain rfl : err = e := by
          injection he
        left
        refine ⟨hlasteq.symm.trans hle, ?_⟩
        refine last_hard_error_not_ignorable res.2 none err ?_ (hlasteq.symm.trans hle)
        intro e0 h0
        exact absurd h0 (by simp)
      | none =>
        rw [hle] at he
        obtain rfl : Error.NoResults = e := by
          injection he
        exact Or.inr ⟨hlasteq.symm.trans hle, rfl⟩
    · rw [if_neg hnil] at he
      exact absurd he (by simp)

/-! ## Fetch fixtures for the witnesses -/

def priceBTC : CoinPrice := ⟨"BTC", "Bitcoin", 5, none, none, "usd", "A", 0⟩

def priceETH : CoinPrice := ⟨"ETH", "Ethereum", 7, none, none, "usd", "B", 0⟩

def fpA : Provider := ⟨"a", "A", fun _ _ => .ok [priceBTC], fun _ _ => .error .NoResults⟩

def fpB : Provider := ⟨"b", "B", fun _ _ => .ok [priceETH], fun _ _ => .error .NoResults⟩

def fpErr : Provider :=
  ⟨"e", "E", fun _ _ => .error (.Api "boom"), fun _ _ => .error .NoResults⟩

/-- Witness for C1: the second visited provider receives exactly the one
still-pending symbol. -/
theorem C1_fallback_visit_order_witness :
    ((fallback_loop [fpA, fpB] "usd" [0, 1] (init_fetch_state ["btc", "eth"])).2.get? 1).map
        FetchStep.request =
      some ((fallback_loop [fpA, fpB] "usd" ([0, 1].take 1)
        (init_fetch_state ["btc", "eth"])).1.pending.map Prod.snd) :=
  (C1_fallback_visit_order [fpA, fpB] [0, 1] ["btc", "eth"] "usd").2.2.2.1 1 (by decide)

/-- Witness for C2: a single hard-failing provider surfaces its own
error with nothing resolved. -/
theorem C2_fallback_error_surfacing_witness :
    (fallback_loop [fpErr] "usd" [0] (init_fetch_state ["btc"])).1.resolved.filterMap id = [] ∧
    ((last_hard_error none
        (fallback_loop [fpErr] "usd" [0] (init_fetch_state ["btc"])).2 = some (.Api "boom") ∧
      is_ignorable_price_error (.Api "boom") = false) ∨
     (last_hard_error none
        (fallback_loop [fpErr] "usd" [0] (init_fetch_state ["btc"])).2 = none ∧
      (Error.Api "boom") = .NoResults)) :=
  (C2_fallback_error_surfacing [fpErr] [0] ["btc"] "usd").2 (.Api "boom") rfl

end Pricr
